import Mathlib

/-!
Verification of the CubiCasa5k indoor-topology core: a shallow embedding of
`indoor_topology/extract_rooms.py` and `indoor_topology/detect_adjacency_v2.py`
(the canonical adjacency variant of the repository), together with proofs of
the specified properties of room segmentation and adjacency detection.

Pixel grids are embedded as functions `Int × Int → _` guarded by explicit
bounds checks, mirroring the Python index arithmetic exactly (including the
`nx < 0` checks).  Imperative loops become structural recursion; the stack
driven flood fill and the directed wall scans take a fuel argument that is
always sufficient for the bound used by the code (proved where a claim needs
the exact behaviour; for state invariants the results hold for every fuel).
-/

namespace CubiCasa

/-- Pixel coordinates: row and column as integers, so that out-of-bounds
arithmetic (`x - 1` at `x = 0`) behaves exactly like the Python source. -/
abbrev Cell := Int × Int

/-- Pointwise update of a pixel map (one numpy array cell assignment). -/
def updF {α : Type} (f : Cell → α) (c : Cell) (v : α) : Cell → α :=
  fun d => if d = c then v else f d

/-- Bounds test for an `h × w` grid: `0 ≤ i < h` and `0 ≤ j < w`. -/
def inB (h w : Nat) (c : Cell) : Bool :=
  decide (0 ≤ c.1) && decide (c.1 < (h : Int)) &&
  decide (0 ≤ c.2) && decide (c.2 < (w : Int))

/-- All in-bounds cells of an `h × w` grid in row-major order (the order of
the Python double loop `for i in range(h): for j in range(w)` and of
`np.nonzero`). -/
def positions (h w : Nat) : List Cell :=
  (List.range h).flatMap (fun (i : Nat) =>
    (List.range w).map (fun (j : Nat) => ((i : Int), (j : Int))))

/-- Neighbour offsets of the flood fill in `extract_rooms.py`
(source order `[(-1,0),(1,0),(0,-1),(0,1)]`). -/
def dirsER : List Cell := [(-1, 0), (1, 0), (0, -1), (0, 1)]

/-- One iteration of the flood-fill body (extract_rooms.py lines 30-38):
pop a cell, label each in-bounds, mask-true, still-unlabeled 4-neighbour with
`lab` and push it.  Returns the updated map and the pushed cells in
examination order. -/
def ccFillStep (h w : Nat) (M : Cell → Bool) (lab : Nat) (m : Cell → Nat) (c : Cell) :
    (Cell → Nat) × List Cell :=
  dirsER.foldl
    (fun acc d =>
      let n : Cell := (c.1 + d.1, c.2 + d.2)
      if inB h w n && M n && decide (acc.1 n = 0) then
        (updF acc.1 n lab, acc.2 ++ [n])
      else acc)
    (m, [])

/-- Stack-driven flood fill (extract_rooms.py lines 27-38; the Python list is
popped from its end, so the head of this list is the top of that stack and
newly pushed neighbours are reversed onto the front).  `fuel` bounds the
number of iterations; the bound `h*w + 1` used below is always sufficient. -/
def ccFill (h w : Nat) (M : Cell → Bool) (lab : Nat) :
    Nat → (Cell → Nat) → List Cell → (Cell → Nat)
  | 0, m, _ => m
  | _ + 1, m, [] => m
  | fuel + 1, m, c :: rest =>
    let s := ccFillStep h w M lab m c
    ccFill h w M lab fuel s.1 (s.2.reverse ++ rest)

/-- Row-major scan starting a fresh flood fill at every still-unlabeled cell
satisfying `M` (extract_rooms.py lines 22-38); this is also the labelling
order of `scipy.ndimage.label` with a 4-connected structuring element. -/
def ccScan (h w : Nat) (M : Cell → Bool) :
    (Cell → Nat) → Nat → List Cell → (Cell → Nat) × Nat
  | m, cur, [] => (m, cur)
  | m, cur, c :: rest =>
    if M c && decide (m c = 0) then
      ccScan h w M (ccFill h w M (cur + 1) (h * w + 1) (updF m c (cur + 1)) [c]) (cur + 1) rest
    else ccScan h w M m cur rest

/-- 4-connected component labelling of the cells where `M` holds: the
component map (0 on all other cells) and the number of components. -/
def ccLabel (h w : Nat) (M : Cell → Bool) : (Cell → Nat) × Nat :=
  ccScan h w M (fun _ => 0) 0 (positions h w)

/-- Category codes excluded from rooms (extract_rooms.py line 12). -/
def exclude_indices_rooms : List Int := [0, 1, 2, 8, 50]

/-- Room-eligibility mask (extract_rooms.py lines 15-16): true unless the
pixel's category is excluded. -/
def roomMask (g : Cell → Int) : Cell → Bool :=
  fun c => !(exclude_indices_rooms.contains (g c))

/-- Insert into a strictly ascending list, dropping duplicates. -/
def sInsert {α : Type} [LinearOrder α] (v : α) : List α → List α
  | [] => [v]
  | x :: xs => if v < x then v :: x :: xs else if v = x then x :: xs else x :: sInsert v xs

/-- Ascending list of the distinct elements of `l` (the value part of
`np.unique`). -/
def sortedDedup {α : Type} [LinearOrder α] (l : List α) : List α :=
  l.foldr sInsert []

/-- Value/count pairs of `np.unique(·, return_counts=True)`: distinct values
in ascending order, each with its multiplicity in `l`. -/
def uniqueCounts (l : List Int) : List (Int × Nat) :=
  (sortedDedup l).map (fun v => (v, l.count v))

/-- Python's `max(l, key=lambda x: x[1])`: the first element whose count is
maximal (later elements replace the current best only when strictly larger). -/
def pickMax : List (Int × Nat) → Option (Int × Nat)
  | [] => none
  | p :: ps => some (ps.foldl (fun best q => if best.2 < q.2 then q else best) p)

/-- Category-code-to-room-name table (extract_rooms.py lines 42-50). -/
def category_to_room (v : Int) : Option String :=
  if v = 3 then some "Kitchen"
  else if v = 4 then some "Living Room"
  else if v = 5 then some "Bedroom"
  else if v = 6 then some "Bath"
  else if v = 7 then some "Hallway"
  else if v = 9 then some "Storage"
  else if v = 10 then some "Garage"
  else none

/-- A segmented room record (extract_rooms.py line 82). -/
structure Room where
  id : Nat
  area : Nat
  room_type : String
deriving Repr, DecidableEq

/-- The cells carrying region id `rid`, in row-major order. -/
def regionCells (h w : Nat) (m : Cell → Nat) (rid : Nat) : List Cell :=
  (positions h w).filter (fun c => decide (m c = rid))

/-- Room-type classification (extract_rooms.py lines 53-81): among the
region's distinct label values, drop the excluded ones and take the first
count-maximal value of the ascending `np.unique` order; map it through
`category_to_room`, defaulting to "Other". -/
def roomTypeOf (labels : List Int) : String :=
  if labels.isEmpty then "Other"
  else
    match pickMax ((uniqueCounts labels).filter
        (fun p => !(exclude_indices_rooms.contains p.1))) with
    | none => "Other"
    | some p =>
      match category_to_room p.1 with
      | some s => s
      | none => "Other"

/-- Shallow embedding of `extract_rooms` (extract_rooms.py lines 4-83): the
argument `g` is the raw label array (the parameter the source confusingly
names `wall_array`), `h × w` its shape.  Returns the region-id map and the
room list. -/
def extract_rooms (h w : Nat) (g : Cell → Int) : (Cell → Nat) × List Room :=
  let p := ccLabel h w (roomMask g)
  let rooms := (List.range p.2).map (fun k =>
    let cells := regionCells h w p.1 (k + 1)
    { id := k + 1, area := cells.length, room_type := roomTypeOf (cells.map g) : Room })
  (p.1, rooms)

/-- The closed connection-type vocabulary `{'door','window','wall'}` of an
edge record, embedded as three membership flags. -/
structure ConnTypes where
  door : Bool
  window : Bool
  wall : Bool
deriving Repr, DecidableEq

/-- Python `len(connection_types) == 0`. -/
def ConnTypes.isEmpty (t : ConnTypes) : Bool :=
  !t.door && !t.window && !t.wall

/-- The value stored per room pair in the `edges` dictionary
(detect_adjacency_v2.py lines 45-51).  The four counters are integers, as in
the source, so that decrements in the tie-break rollback could in principle
go negative. -/
structure EdgeData where
  connection_types : ConnTypes
  num_door_window : Int
  area_door_window : Int
  num_wall : Int
  area_wall : Int
deriving Repr, DecidableEq

/-- Fresh edge record (detect_adjacency_v2.py lines 45-51). -/
def emptyEdge : EdgeData :=
  { connection_types := ⟨false, false, false⟩, num_door_window := 0,
    area_door_window := 0, num_wall := 0, area_wall := 0 }

/-- The `edges` dictionary, as an association list in insertion order
(Python dicts preserve insertion order). -/
abbrev Edges := List ((Nat × Nat) × EdgeData)

/-- Dictionary lookup `edges[key]`. -/
def findEdge (k : Nat × Nat) : Edges → Option EdgeData
  | [] => none
  | (k2, e) :: rest => if k2 = k then some e else findEdge k rest

/-- In-place mutation of the record bound to `k` (no-op when absent). -/
def modifyEdge (k : Nat × Nat) (f : EdgeData → EdgeData) : Edges → Edges
  | [] => []
  | (k2, e) :: rest => if k2 = k then (k2, f e) :: rest else (k2, e) :: modifyEdge k f rest

/-- Python `edges.pop(k, None)`. -/
def removeEdge (k : Nat × Nat) : Edges → Edges
  | [] => []
  | (k2, e) :: rest => if k2 = k then rest else (k2, e) :: removeEdge k rest

/-- Canonical unordered key `(a, b) if a < b else (b, a)`
(detect_adjacency_v2.py line 43). -/
def canonKey (a b : Nat) : Nat × Nat :=
  if a < b then (a, b) else (b, a)

/-- `ensure_edge_entry` (detect_adjacency_v2.py lines 42-52): canonicalize the
pair and create a fresh record if the key is absent; returns the updated
dictionary and the key. -/
def ensure_edge_entry (es : Edges) (a b : Nat) : Edges × (Nat × Nat) :=
  let key := canonKey a b
  match findEdge key es with
  | some _ => (es, key)
  | none => (es ++ [(key, emptyEdge)], key)

/-- Neighbour offsets in the order used throughout detect_adjacency_v2.py:
`[(0,1),(0,-1),(1,0),(-1,0)]`. -/
def dirsDA : List Cell := [(0, 1), (0, -1), (1, 0), (-1, 0)]

/-- One-pixel 4-connected dilation ring of the component `K`
(detect_adjacency_v2.py lines 68-69): in-bounds cells outside `K` with a
4-neighbour inside `K`. -/
def ringCells (h w : Nat) (K : Cell → Bool) : List Cell :=
  (positions h w).filter (fun c =>
    !K c && dirsDA.any (fun d => K (c.1 + d.1, c.2 + d.2)))

/-- The ascending list of distinct positive room ids touching the ring of `K`
(detect_adjacency_v2.py lines 70-71). -/
def ringRoomIds (h w : Nat) (rmap : Cell → Nat) (K : Cell → Bool) : List Nat :=
  (sortedDedup ((ringCells h w K).map rmap)).filter (fun i => decide (0 < i))

/-- Body of the door/window loop for one labelled component
(detect_adjacency_v2.py lines 67-78): when the ring touches exactly two
distinct positive rooms, record one opening of the given type. -/
def doorWindowUpdate (h w : Nat) (rmap : Cell → Nat) (isDoor : Bool)
    (es : Edges) (comp : List Cell) (K : Cell → Bool) : Edges :=
  let ids := ringRoomIds h w rmap K
  if ids.length = 2 then
    let a := ids.getD 0 0
    let b := ids.getD 1 0
    let r := ensure_edge_entry es a b
    modifyEdge r.2 (fun e =>
      { e with
        connection_types :=
          if isDoor then { e.connection_types with door := true }
          else { e.connection_types with window := true },
        num_door_window := e.num_door_window + 1,
        area_door_window := e.area_door_window + comp.length }) r.1
  else es

/-- Door and window pass (detect_adjacency_v2.py lines 59-78): 4-connected
component labelling of the icon value, then one `doorWindowUpdate` per
component. -/
def doorWindowPass (h w : Nat) (rmap : Cell → Nat) (icon : Cell → Int)
    (es : Edges) : Edges :=
  [((1 : Int), true), ((2 : Int), false)].foldl
    (fun es0 iv =>
      let cl := ccLabel h w (fun c => decide (icon c = iv.1))
      (List.range cl.2).foldl
        (fun es1 k =>
          let comp := regionCells h w cl.1 (k + 1)
          if comp.isEmpty then es1
          else doorWindowUpdate h w rmap iv.2 es1 comp (fun c => decide (cl.1 c = k + 1)))
        es0)
    es

/-- Boundary pixels of room `rid` in row-major order (get_boundary_mask,
detect_adjacency_v2.py lines 4-21): room pixels with a 4-neighbour, possibly
out of bounds, that is not in the room (erosion with `border_value=0`). -/
def boundaryCells (h w : Nat) (rmap : Cell → Nat) (rid : Nat) : List Cell :=
  (positions h w).filter (fun c =>
    decide (rmap c = rid) &&
    dirsDA.any (fun d =>
      let n : Cell := (c.1 + d.1, c.2 + d.2)
      !(inB h w n && decide (rmap n = rid))))

/-- Directed penetration scan (detect_adjacency_v2.py lines 109-132), started
at the first wall neighbour and stepping by `(dx, dy)`: returns the optional
`(encountered_room, last wall pixel)` and the wall pixels traversed.  The
fuel `h + w + 2` used by the caller always exceeds the number of in-bounds
steps along a fixed axis direction. -/
def penetrate (h w : Nat) (rmap : Cell → Nat) (wallA : Cell → Int) (rid : Nat)
    (dx dy : Int) :
    Nat → Int → Int → List Cell → Option (Nat × Cell) × List Cell
  | 0, _, _, acc => (none, acc)
  | fuel + 1, cx, cy, acc =>
    if !inB h w (cx, cy) then (none, acc)
    else if wallA (cx, cy) = 1 then
      penetrate h w rmap wallA rid dx dy fuel (cx + dx) (cy + dy) (acc ++ [(cx, cy)])
    else
      let r2 := rmap (cx, cy)
      if r2 ≠ 0 ∧ r2 ≠ rid then (some (r2, (cx - dx, cy - dy)), acc)
      else (none, acc)

/-- Orientation of the wall run and the two transverse sides as a function of
the scan direction (detect_adjacency_v2.py lines 145-158); the final case is
the dead `else` branch of the source. -/
def orientOf (dx dy : Int) : List Cell × Cell × Cell :=
  if dx = 0 ∧ dy = 1 then ([(1, 0), (-1, 0)], (0, -1), (0, 1))
  else if dx = 0 ∧ dy = -1 then ([(1, 0), (-1, 0)], (0, 1), (0, -1))
  else if dx = 1 ∧ dy = 0 then ([(0, 1), (0, -1)], (-1, 0), (1, 0))
  else if dx = -1 ∧ dy = 0 then ([(0, 1), (0, -1)], (1, 0), (-1, 0))
  else ([], (0, 0), (0, 0))

/-- Sideways extension of the penetrated segment in one transverse direction
(detect_adjacency_v2.py lines 164-185): absorb consecutive unvisited wall
pixels while the two flanking sides stay in `rid` and `enc`; visited marking
and the segment list are threaded. -/
def extendSeg (h w : Nat) (rmap : Cell → Nat) (wallA : Cell → Int)
    (rid enc : Nat) (odx ody : Int) (sA sB : Cell) :
    Nat → Int → Int → (Cell → Bool) → List Cell → (Cell → Bool) × List Cell
  | 0, _, _, vis, acc => (vis, acc)
  | fuel + 1, curx, cury, vis, acc =>
    let nx := curx + odx
    let ny := cury + ody
    if !inB h w (nx, ny) then (vis, acc)
    else if wallA (nx, ny) ≠ 1 then (vis, acc)
    else if vis (nx, ny) then (vis, acc)
    else
      let a : Cell := (nx + sA.1, ny + sA.2)
      let b : Cell := (nx + sB.1, ny + sB.2)
      if !inB h w a then (vis, acc)
      else if !inB h w b then (vis, acc)
      else if rmap a ≠ rid ∨ rmap b ≠ enc then (vis, acc)
      else
        extendSeg h w rmap wallA rid enc odx ody sA sB fuel nx ny
          (updF vis (nx, ny) true) (acc ++ [(nx, ny)])

/-- Wall categories whose adjacency disqualifies a segment
(detect_adjacency_v2.py line 88). -/
def exclude_indices_walls : List Int := [0, 1, 8, 50]

/-- Exterior-exclusion test (detect_adjacency_v2.py lines 191-204): some
pixel of the segment has an in-bounds 4-neighbour whose raw label is
excluded. -/
def excludeSegment (h w : Nat) (wl : Cell → Int) (seg : List Cell) : Bool :=
  seg.any (fun p => dirsDA.any (fun d =>
    let n : Cell := (p.1 + d.1, p.2 + d.2)
    inB h w n && exclude_indices_walls.contains (wl n)))

/-- The per-wall-blob bookkeeping `segment_label_map`
(detect_adjacency_v2.py line 90): raw label value at the segment anchor maps
to the recorded room pair and its segment length. -/
abbrev SegMap := List (Int × ((Nat × Nat) × Nat))

/-- Lookup in `segment_label_map`. -/
def findSeg (k : Int) : SegMap → Option ((Nat × Nat) × Nat)
  | [] => none
  | (k2, v) :: rest => if k2 = k then some v else findSeg k rest

/-- Assignment `segment_label_map[k] = v`. -/
def setSeg (k : Int) (v : (Nat × Nat) × Nat) : SegMap → SegMap
  | [] => [(k, v)]
  | (k2, v2) :: rest => if k2 = k then (k2, v) :: rest else (k2, v2) :: setSeg k v rest

/-- Record one wall connection for `(rid, enc)`
(detect_adjacency_v2.py lines 211-214 and 226-229). -/
def addWall (es : Edges) (rid enc : Nat) (len : Nat) : Edges :=
  let r := ensure_edge_entry es rid enc
  modifyEdge r.2 (fun e =>
    { e with
      connection_types := { e.connection_types with wall := true },
      num_wall := e.num_wall + 1,
      area_wall := e.area_wall + len }) r.1

/-- Roll back a superseded wall attribution
(detect_adjacency_v2.py lines 219-224): decrement the counters, drop 'wall'
when the count reaches zero, and pop the entry when no connection type
remains.  The `none` branches model the `KeyError` Python would raise on a
missing key; the adjacency invariants below show they are never taken. -/
def rollbackWall (es : Edges) (k : Nat × Nat) (len : Nat) : Edges :=
  let es1 := modifyEdge k (fun e =>
    { e with num_wall := e.num_wall - 1, area_wall := e.area_wall - len }) es
  match findEdge k es1 with
  | none => es1
  | some e =>
    if e.num_wall = 0 then
      let es2 := modifyEdge k (fun e2 =>
        { e2 with connection_types := { e2.connection_types with wall := false } }) es1
      match findEdge k es2 with
      | none => es2
      | some e2 =>
        if e2.connection_types.isEmpty then removeEdge k es2 else es2
    else es1

/-- The mutable state of the wall pass: the edge dictionary, the
per-label tie-break map and the visited mask. -/
structure WallState where
  edges : Edges
  segMap : SegMap
  visited : Cell → Bool

/-- Sideways extension of the scanned segment in both transverse directions
(detect_adjacency_v2.py lines 144-185): both walks start from the anchor
(the `base` pixel of line 161) and thread the visited mask and the segment
list. -/
def segExtend (h w : Nat) (rmap : Cell → Nat) (wallA : Cell → Int)
    (rid enc : Nat) (dx dy : Int) (anchor : Cell) (seg0 : List Cell)
    (vis : Cell → Bool) : (Cell → Bool) × List Cell :=
  (orientOf dx dy).1.foldl
    (fun (acc : (Cell → Bool) × List Cell) o =>
      extendSeg h w rmap wallA rid enc o.1 o.2
        (orientOf dx dy).2.1 (orientOf dx dy).2.2 (h + w + 2)
        anchor.1 anchor.2 acc.1 acc.2)
    (vis, seg0)

/-- Commit a successful penetration (detect_adjacency_v2.py lines 136-232):
canonicalize the pair, mark the scanned pixels visited, extend sideways in
both transverse directions, deduplicate, apply the exterior exclusion, and
run the smallest-area tie-break keyed by the raw label at the anchor. -/
def wallCommit (h w : Nat) (rmap : Cell → Nat) (wallA : Cell → Int)
    (wl : Cell → Int) (rid enc : Nat) (dx dy : Int) (anchor : Cell)
    (seg0 : List Cell) (st : WallState) : WallState :=
  let pair := if rid < enc then (rid, enc) else (enc, rid)
  let vis1 := seg0.foldl (fun v p => updF v p true) st.visited
  let base := anchor
  let ext := segExtend h w rmap wallA rid enc dx dy anchor seg0 vis1
  let segset := ext.2.dedup
  let slen := segset.length
  if excludeSegment h w wl segset then
    { edges := st.edges, segMap := st.segMap, visited := ext.1 }
  else
    let segLabel := wl base
    match findSeg segLabel st.segMap with
    | none =>
      { edges := addWall st.edges rid enc slen,
        segMap := setSeg segLabel (pair, slen) st.segMap,
        visited := ext.1 }
    | some pv =>
      if slen < pv.2 then
        { edges := addWall (rollbackWall st.edges pv.1 pv.2) rid enc slen,
          segMap := setSeg segLabel (pair, slen) st.segMap,
          visited := ext.1 }
      else
        { edges := st.edges, segMap := st.segMap, visited := ext.1 }

/-- Per-direction body of the wall pass (detect_adjacency_v2.py lines
97-232): guard on an in-bounds, unvisited wall neighbour, run the
penetration scan, and commit on success. -/
def wallDirStep (h w : Nat) (rmap : Cell → Nat) (wallA : Cell → Int)
    (wl : Cell → Int) (rid : Nat) (x y : Int) (st : WallState) (d : Cell) :
    WallState :=
  let nx := x + d.1
  let ny := y + d.2
  if !inB h w (nx, ny) then st
  else if wallA (nx, ny) ≠ 1 then st
  else if st.visited (nx, ny) then st
  else
    let pr := penetrate h w rmap wallA rid d.1 d.2 (h + w + 2) nx ny []
    match pr.1 with
    | none => st
    | some (enc, anchor) => wallCommit h w rmap wallA wl rid enc d.1 d.2 anchor pr.2 st

/-- Wall pass for one room: all boundary pixels in row-major order, each with
the four scan directions. -/
def wallRoomStep (h w : Nat) (rmap : Cell → Nat) (wallA : Cell → Int)
    (wl : Cell → Int) (st : WallState) (rid : Nat) : WallState :=
  (boundaryCells h w rmap rid).foldl
    (fun st1 c => dirsDA.foldl (wallDirStep h w rmap wallA wl rid c.1 c.2) st1)
    st

/-- Ascending list of the nonzero room ids present in the map
(detect_adjacency_v2.py lines 82-83). -/
def region_ids (h w : Nat) (rmap : Cell → Nat) : List Nat :=
  (sortedDedup ((positions h w).map rmap)).filter (fun i => decide (i ≠ 0))

/-- Shallow embedding of `detect_adjacency`
(detect_adjacency_v2.py lines 23-235): the door/window pass followed by the
wall pass over every room. -/
def detect_adjacency (h w : Nat) (rmap : Cell → Nat) (wallA : Cell → Int)
    (icon : Cell → Int) (wl : Cell → Int) : Edges :=
  let es0 := doorWindowPass h w rmap icon []
  let st := (region_ids h w rmap).foldl (wallRoomStep h w rmap wallA wl)
    { edges := es0, segMap := [], visited := fun _ => false }
  st.edges

/-! ### Basic lemmas about the grid model -/

theorem inB_iff {h w : Nat} {c : Cell} :
    inB h w c = true ↔ 0 ≤ c.1 ∧ c.1 < (h : Int) ∧ 0 ≤ c.2 ∧ c.2 < (w : Int) := by
  simp only [inB, Bool.and_eq_true, decide_eq_true_eq]
  tauto

theorem mem_positions {h w : Nat} {c : Cell} :
    c ∈ positions h w ↔ inB h w c = true := by
  rw [inB_iff]
  constructor
  · intro hc
    rw [positions, List.mem_flatMap] at hc
    obtain ⟨i, hi, hc⟩ := hc
    rw [List.mem_map] at hc
    obtain ⟨j, hj, rfl⟩ := hc
    rw [List.mem_range] at hi hj
    refine ⟨Int.natCast_nonneg i, ?_, Int.natCast_nonneg j, ?_⟩
    · show (i : Int) < (h : Int)
      exact_mod_cast hi
    · show (j : Int) < (w : Int)
      exact_mod_cast hj
  · rintro ⟨h1, h2, h3, h4⟩
    rw [positions, List.mem_flatMap]
    refine ⟨c.1.toNat, ?_, ?_⟩
    · rw [List.mem_range]; omega
    · rw [List.mem_map]
      refine ⟨c.2.toNat, ?_, ?_⟩
      · rw [List.mem_range]; omega
      · rw [Int.toNat_of_nonneg h1, Int.toNat_of_nonneg h3]

theorem updF_same {α : Type} (f : Cell → α) (c : Cell) (v : α) :
    updF f c v c = v := by
  simp [updF]

theorem updF_other {α : Type} (f : Cell → α) (c d : Cell) (v : α) (hd : d ≠ c) :
    updF f c v d = f d := by
  simp [updF, hd]

/-! ### Degenerate input (claim C9) -/

theorem ccScan_no_eligible (h w : Nat) (M : Cell → Bool) (m : Cell → Nat)
    (cur : Nat) (l : List Cell) (hl : ∀ c ∈ l, M c = false) :
    ccScan h w M m cur l = (m, cur) := by
  induction l with
  | nil => rfl
  | cons c rest ih =>
    have hc : M c = false := hl c (by simp)
    simp only [ccScan, hc, Bool.false_and, Bool.false_eq_true, if_false]
    exact ih (fun d hd => hl d (by simp [hd]))

/-- Claim C9: when every in-bounds pixel's category is excluded (including
the empty grid), `extract_rooms` returns an all-zero region-id map and an
empty room list. -/
theorem extract_rooms_degenerate (h w : Nat) (g : Cell → Int)
    (hx : ∀ c ∈ positions h w, g c ∈ exclude_indices_rooms) :
    (∀ c, (extract_rooms h w g).1 c = 0) ∧ (extract_rooms h w g).2 = [] := by
  have hmask : ∀ c ∈ positions h w, roomMask g c = false := by
    intro c hc
    simp [roomMask]
    exact hx c hc
  have hscan := ccScan_no_eligible h w (roomMask g) (fun _ => 0) 0 (positions h w) hmask
  constructor
  · intro c
    simp [extract_rooms, ccLabel, hscan]
  · simp [extract_rooms, ccLabel, hscan]

/-- Witness for C9 at a concrete 2×2 all-background grid. -/
theorem extract_rooms_degenerate_witness :
    (extract_rooms 2 2 (fun _ => 0)).2 = [] ∧
      (extract_rooms 2 2 (fun _ => 0)).1 (0, 0) = 0 := by
  have hx : ∀ c ∈ positions 2 2, (fun (_ : Cell) => (0 : Int)) c ∈ exclude_indices_rooms := by
    decide
  exact ⟨(extract_rooms_degenerate 2 2 (fun _ => 0) hx).2,
    (extract_rooms_degenerate 2 2 (fun _ => 0) hx).1 (0, 0)⟩

/-! ### Determinism of segmentation (claim C8) -/

/-- Claim C8: `extract_rooms` is a pure function of its input grid — the
embedding has no other state, mirroring the single-threaded source whose
only iteration orders (row-major scans, insertion-ordered dicts) are fixed
by the input.  Two runs on pointwise-equal inputs give identical region-id
maps and identical room lists. -/
theorem extract_rooms_deterministic (h1 w1 h2 w2 : Nat) (g1 g2 : Cell → Int)
    (hh : h1 = h2) (hw : w1 = w2) (hg : ∀ c, g1 c = g2 c) :
    extract_rooms h1 w1 g1 = extract_rooms h2 w2 g2 := by
  subst hh; subst hw
  have : g1 = g2 := funext hg
  rw [this]

/-- Witness for C8: two syntactically different but pointwise-equal grids. -/
theorem extract_rooms_deterministic_witness :
    extract_rooms 1 2 (fun _ => 3) = extract_rooms 1 2 (fun c => c.1 * 0 + 3) := by
  exact extract_rooms_deterministic 1 2 1 2 _ _ rfl rfl (fun c => by ring)

/-! ### The sorted-dedup model of `np.unique` -/

theorem mem_sInsert {α : Type} [LinearOrder α] (v a : α) (l : List α) :
    a ∈ sInsert v l ↔ a = v ∨ a ∈ l := by
  induction l with
  | nil => simp [sInsert]
  | cons x xs ih =>
    by_cases h1 : v < x
    · simp [sInsert, h1]
    · by_cases h2 : v = x
      · subst h2
        simp only [sInsert, if_neg h1, if_pos rfl]
        simp
      · simp only [sInsert, if_neg h1, if_neg h2, List.mem_cons, ih]
        tauto

theorem sInsert_sorted {α : Type} [LinearOrder α] (v : α) (l : List α)
    (hl : l.Sorted (· < ·)) : (sInsert v l).Sorted (· < ·) := by
  induction l with
  | nil => simp [sInsert]
  | cons x xs ih =>
    rw [List.sorted_cons] at hl
    by_cases h1 : v < x
    · rw [sInsert, if_pos h1, List.sorted_cons]
      refine ⟨?_, List.sorted_cons.mpr hl⟩
      intro b hb
      rcases List.mem_cons.mp hb with hbx | hbs
      · subst hbx; exact h1
      · exact lt_trans h1 (hl.1 b hbs)
    · by_cases h2 : v = x
      · rw [sInsert, if_neg h1, if_pos h2]
        exact List.sorted_cons.mpr hl
      · rw [sInsert, if_neg h1, if_neg h2, List.sorted_cons]
        refine ⟨?_, ih hl.2⟩
        intro b hb
        rcases (mem_sInsert v b xs).mp hb with hbv | hbs
        · rw [hbv]
          rcases lt_trichotomy v x with hc | hc | hc
          · exact absurd hc h1
          · exact absurd hc h2
          · exact hc
        · exact hl.1 b hbs

theorem mem_sortedDedup {α : Type} [LinearOrder α] (a : α) (l : List α) :
    a ∈ sortedDedup l ↔ a ∈ l := by
  induction l with
  | nil => simp [sortedDedup]
  | cons x xs ih =>
    show a ∈ sInsert x (sortedDedup xs) ↔ _
    rw [mem_sInsert, ih, List.mem_cons]

theorem sortedDedup_sorted {α : Type} [LinearOrder α] (l : List α) :
    (sortedDedup l).Sorted (· < ·) := by
  induction l with
  | nil => simp [sortedDedup]
  | cons x xs ih => exact sInsert_sorted x (sortedDedup xs) ih

theorem sortedDedup_nodup {α : Type} [LinearOrder α] (l : List α) :
    (sortedDedup l).Nodup := (sortedDedup_sorted l).nodup

/-! ### Characterizing the Python `max(·, key=...)` -/

theorem pickMax_go {β : Type} (count : β → Nat) (val : β → Int)
    (ps : List β) (acc : β) (hlt : ∀ q ∈ ps, val acc < val q)
    (hso : ps.Pairwise (fun a b => val a < val b)) :
    let step : β → β → β := fun best q => if count best < count q then q else best
    let r := ps.foldl step acc
    (r = acc ∨ r ∈ ps) ∧ count acc ≤ count r ∧ (∀ q ∈ ps, count q ≤ count r) ∧
      (count r = count acc → r = acc) ∧
      (∀ q ∈ ps, count q = count r → val r ≤ val q) := by
  induction ps generalizing acc with
  | nil => simp
  | cons q0 rest ih =>
    intro step r
    have hso2 := (List.pairwise_cons.mp hso).2
    have hq0 := (List.pairwise_cons.mp hso).1
    by_cases hcmp : count acc < count q0
    · have hfold : r = rest.foldl step q0 := by
        show (q0 :: rest).foldl step acc = _
        simp only [List.foldl_cons, step, if_pos hcmp]
      obtain ⟨m1, m2, m3, m4, m5⟩ := ih q0 hq0 hso2
      rw [← hfold] at m1 m2 m3 m4 m5
      refine ⟨?_, ?_, ?_, ?_, ?_⟩
      · rcases m1 with hr | hr
        · exact Or.inr (by simp [hr])
        · exact Or.inr (by simp [hr])
      · exact le_trans (le_of_lt hcmp) m2
      · intro q hq
        rcases List.mem_cons.mp hq with rfl | hq
        · exact m2
        · exact m3 q hq
      · intro hceq
        exact absurd hceq (by omega)
      · intro q hq hcq
        rcases List.mem_cons.mp hq with rfl | hq
        · have := m4 hcq.symm
          simp [this]
        · exact m5 q hq hcq
    · have hfold : r = rest.foldl step acc := by
        show (q0 :: rest).foldl step acc = _
        simp only [List.foldl_cons, step, if_neg hcmp]
      have hlt2 : ∀ q ∈ rest, val acc < val q := fun q hq => hlt q (by simp [hq])
      obtain ⟨m1, m2, m3, m4, m5⟩ := ih acc hlt2 hso2
      rw [← hfold] at m1 m2 m3 m4 m5
      refine ⟨?_, m2, ?_, m4, ?_⟩
      · rcases m1 with hr | hr
        · exact Or.inl hr
        · exact Or.inr (by simp [hr])
      · intro q hq
        rcases List.mem_cons.mp hq with rfl | hq
        · omega
        · exact m3 q hq
      · intro q hq hcq
        rcases List.mem_cons.mp hq with rfl | hq
        · have hra : count r = count acc := by omega
          have hr2 := m4 hra
          rw [hr2]
          exact le_of_lt (hlt _ (by simp))
        · exact m5 q hq hcq

theorem pickMax_spec {β : Type} (count : β → Nat) (val : β → Int)
    (l : List β) (p : β)
    (hp : (match l with
      | [] => none
      | q :: qs => some (qs.foldl (fun best q2 => if count best < count q2 then q2 else best) q)) = some p)
    (hso : l.Pairwise (fun a b => val a < val b)) :
    p ∈ l ∧ (∀ q ∈ l, count q ≤ count p) ∧ (∀ q ∈ l, count q = count p → val p ≤ val q) := by
  match l with
  | [] => exact absurd hp (by simp)
  | q :: qs =>
    have hpq : p = qs.foldl (fun best q2 => if count best < count q2 then q2 else best) q := by
      have := Option.some.inj hp
      exact this.symm
    obtain ⟨m1, m2, m3, m4, m5⟩ := pickMax_go count val qs q
      (List.pairwise_cons.mp hso).1 (List.pairwise_cons.mp hso).2
    rw [← hpq] at m1 m2 m3 m4 m5
    refine ⟨?_, ?_, ?_⟩
    · rcases m1 with hr | hr
      · exact by simp [hr]
      · exact by simp [hr]
    · intro q2 hq2
      rcases List.mem_cons.mp hq2 with rfl | hq2
      · exact m2
      · exact m3 q2 hq2
    · intro q2 hq2 hcq
      rcases List.mem_cons.mp hq2 with rfl | hq2
      · have := m4 hcq.symm
        simp [this]
      · exact m5 q2 hq2 hcq

theorem pickMax_eq_match (l : List (Int × Nat)) :
    pickMax l = (match l with
      | [] => none
      | q :: qs => some (qs.foldl (fun best q2 => if best.2 < q2.2 then q2 else best) q)) := by
  match l with
  | [] => rfl
  | q :: qs => rfl

/-! ### Room-type classification (claim C6) -/

theorem mem_uniqueCounts (l : List Int) (p : Int × Nat) :
    p ∈ uniqueCounts l ↔ p.1 ∈ l ∧ p.2 = l.count p.1 := by
  simp only [uniqueCounts, List.mem_map]
  constructor
  · rintro ⟨v, hv, rfl⟩
    exact ⟨(mem_sortedDedup v l).mp hv, rfl⟩
  · rintro ⟨h1, h2⟩
    refine ⟨p.1, (mem_sortedDedup _ _).mpr h1, ?_⟩
    obtain ⟨a, b⟩ := p
    simp only at h2 ⊢
    rw [h2]

theorem uniqueCounts_pairwise (l : List Int) :
    (uniqueCounts l).Pairwise (fun a b => a.1 < b.1) := by
  have hs : (sortedDedup l).Pairwise (fun a b => a < b) := sortedDedup_sorted l
  exact List.pairwise_map.mpr hs

/-- The label multiset of region `rid` of the segmentation, in row-major
order; `extract_rooms` classifies each room from exactly this list. -/
def roomLabels (h w : Nat) (g : Cell → Int) (rid : Nat) : List Int :=
  (regionCells h w (extract_rooms h w g).1 rid).map g

theorem mem_rooms_room_type (h w : Nat) (g : Cell → Int) (r : Room)
    (hr : r ∈ (extract_rooms h w g).2) :
    r.room_type = roomTypeOf (roomLabels h w g r.id) := by
  simp only [extract_rooms, List.mem_map, List.mem_range] at hr
  obtain ⟨k, hk, rfl⟩ := hr
  rfl

/-- Claim C6 (amended): `room_type` is determined by the most frequent
non-excluded category of the region, ties broken by the smallest category
code (the first of the ascending `np.unique` enumeration): its table name
when it is one of the seven mapped room-surface categories, and "Other"
otherwise — in particular also when the most frequent non-excluded category
is an unmapped one such as a furniture code, and when no non-excluded
category occurs at all. -/
theorem room_type_amended (h w : Nat) (g : Cell → Int) (r : Room)
    (hr : r ∈ (extract_rooms h w g).2) :
    ((∀ v ∈ roomLabels h w g r.id, v ∈ exclude_indices_rooms) →
        r.room_type = "Other") ∧
    (∀ v ∈ roomLabels h w g r.id, v ∉ exclude_indices_rooms →
      (∀ u ∈ roomLabels h w g r.id, u ∉ exclude_indices_rooms →
        (roomLabels h w g r.id).count u ≤ (roomLabels h w g r.id).count v) →
      (∀ u ∈ roomLabels h w g r.id, u ∉ exclude_indices_rooms →
        (roomLabels h w g r.id).count u = (roomLabels h w g r.id).count v → v ≤ u) →
      r.room_type = (category_to_room v).getD "Other") := by
  rw [mem_rooms_room_type h w g r hr]
  set labels := roomLabels h w g r.id with hlabels
  constructor
  · intro hall
    by_cases hemp : labels.isEmpty
    · rw [roomTypeOf, if_pos hemp]
    · rw [roomTypeOf, if_neg hemp]
      have hnil : (uniqueCounts labels).filter
          (fun p => !(exclude_indices_rooms.contains p.1)) = [] := by
        rw [List.eq_nil_iff_forall_not_mem]
        intro p hp
        rw [List.mem_filter] at hp
        have h1 := (mem_uniqueCounts labels p).mp hp.1
        have h2 := hp.2
        simp only [Bool.not_eq_true'] at h2
        have hmem : p.1 ∈ exclude_indices_rooms := hall p.1 h1.1
        have hcont : exclude_indices_rooms.contains p.1 = true := by simpa using hmem
        rw [hcont] at h2
        exact Bool.noConfusion h2
      rw [hnil]
      rfl
  · intro v hv hvex hmax htie
    have hemp : labels.isEmpty = false := by
      cases hl2 : labels with
      | nil => rw [hl2] at hv; exact absurd hv (by simp)
      | cons a l2 => rfl
    rw [roomTypeOf, if_neg (by simp [hemp])]
    set filtered := (uniqueCounts labels).filter
      (fun p => !(exclude_indices_rooms.contains p.1)) with hfiltered
    have hmemf : ∀ p : Int × Nat, p ∈ filtered ↔
        (p.1 ∈ labels ∧ p.2 = labels.count p.1) ∧ p.1 ∉ exclude_indices_rooms := by
      intro p
      rw [hfiltered, List.mem_filter, mem_uniqueCounts]
      simp
    have hvf : ((v, labels.count v) : Int × Nat) ∈ filtered :=
      (hmemf _).mpr ⟨⟨hv, rfl⟩, hvex⟩
    have hpair : filtered.Pairwise (fun a b => a.1 < b.1) :=
      (uniqueCounts_pairwise labels).sublist (List.filter_sublist _)
    obtain ⟨q, qs, hcons⟩ : ∃ q qs, filtered = q :: qs := by
      cases hf : filtered with
      | nil => rw [hf] at hvf; exact absurd hvf (by simp)
      | cons q qs => exact ⟨q, qs, rfl⟩
    have hpick : pickMax filtered = some (qs.foldl
        (fun best q2 => if best.2 < q2.2 then q2 else best) q) := by
      rw [hcons, pickMax_eq_match]
    obtain ⟨hm1, hm2, hm3⟩ := pickMax_spec (fun p : Int × Nat => p.2)
      (fun p : Int × Nat => p.1) filtered _ (by rw [hcons]) hpair
    set p := qs.foldl (fun best q2 => if best.2 < q2.2 then q2 else best) q with hp
    have hpmem := (hmemf p).mp hm1
    have hcntp : p.2 = labels.count p.1 := hpmem.1.2
    have hcv : labels.count p.1 = labels.count v := by
      have h1 : labels.count p.1 ≤ labels.count v :=
        hmax p.1 hpmem.1.1 hpmem.2
      have h2 : labels.count v ≤ labels.count p.1 := by
        have := hm2 (v, labels.count v) hvf
        rw [hcntp] at this
        exact this
      omega
    have hveq : p.1 = v := by
      have h1 : v ≤ p.1 := htie p.1 hpmem.1.1 hpmem.2 hcv
      have h2 : p.1 ≤ v := by
        have := hm3 (v, labels.count v) hvf (by rw [hcntp, hcv])
        exact this
      omega
    rw [hpick]
    show (match category_to_room p.1 with
      | some s => s
      | none => "Other") = (category_to_room v).getD "Other"
    rw [hveq]
    cases hcat : category_to_room v with
    | none => rfl
    | some s => rfl

/-- Modelled from the words of claim C6 (not from the source): the
room-surface category among Kitchen..Garage with the highest pixel count in
the region, ties broken by the first-encountered category of the fixed
enumeration, and "Other" only when no room-surface category occurs. -/
def claimRoomType (labels : List Int) : String :=
  match pickMax ((([3, 4, 5, 6, 7, 9, 10] : List Int).map
      (fun v => (v, labels.count v))).filter (fun p => decide (0 < p.2))) with
  | none => "Other"
  | some p => (category_to_room p.1).getD "Other"

/-- A 1×5 strip forming a single region: two Kitchen pixels (category 3)
and three pixels of the unmapped non-excluded category 11. -/
def cexGrid : Cell → Int := fun c => if c.2 < 2 then 3 else 11

/-- Counterexample to claim C6 as stated: on `cexGrid` the code returns
room_type "Other" (the most frequent non-excluded category, 11, is not a
mapped room-surface category), while the claim's rule — the room-surface
category with the highest pixel count, here Kitchen — predicts "Kitchen". -/
theorem room_type_counterexample :
    (extract_rooms 1 5 cexGrid).2.map Room.room_type = ["Other"] ∧
    claimRoomType (roomLabels 1 5 cexGrid 1) = "Kitchen" ∧
    (3 : Int) ∈ roomLabels 1 5 cexGrid 1 := by
  decide

/-- Witness for the amended C6 theorem on a concrete uniform Kitchen grid. -/
theorem room_type_amended_witness :
    ({ id := 1, area := 2, room_type := "Kitchen" } : Room).room_type =
      (category_to_room 3).getD "Other" :=
  (room_type_amended 1 2 (fun _ => 3)
      { id := 1, area := 2, room_type := "Kitchen" } (by decide)).2
    3 (by decide) (by decide) (by decide) (by decide)

/-! ### Association-list lemmas for the edge dictionary -/

theorem findEdge_append (k : Nat × Nat) (es l : Edges) :
    findEdge k (es ++ l) = match findEdge k es with
      | some e => some e
      | none => findEdge k l := by
  induction es with
  | nil => simp [findEdge]
  | cons p rest ih =>
    obtain ⟨k2, e⟩ := p
    by_cases hk : k2 = k
    · simp [findEdge, hk]
    · simp [findEdge, hk, ih]

theorem findEdge_modify_self (k : Nat × Nat) (f : EdgeData → EdgeData) (es : Edges) :
    findEdge k (modifyEdge k f es) = (findEdge k es).map f := by
  induction es with
  | nil => rfl
  | cons p rest ih =>
    obtain ⟨k2, e⟩ := p
    by_cases hk : k2 = k
    · simp [findEdge, modifyEdge, hk]
    · simp [findEdge, modifyEdge, hk, ih]

theorem findEdge_modify_other (k k2 : Nat × Nat) (f : EdgeData → EdgeData)
    (es : Edges) (hk : k2 ≠ k) :
    findEdge k2 (modifyEdge k f es) = findEdge k2 es := by
  induction es with
  | nil => rfl
  | cons p rest ih =>
    obtain ⟨k3, e⟩ := p
    rw [modifyEdge]
    by_cases h3 : k3 = k
    · rw [if_pos h3]
      subst h3
      have hne : k3 ≠ k2 := Ne.symm hk
      rw [findEdge, findEdge, if_neg hne, if_neg hne]
    · rw [if_neg h3]
      by_cases h4 : k3 = k2
      · subst h4
        rw [findEdge, findEdge, if_pos rfl, if_pos rfl]
      · rw [findEdge, findEdge, if_neg h4, if_neg h4, ih]

theorem ensure_key (es : Edges) (a b : Nat) :
    (ensure_edge_entry es a b).2 = canonKey a b := by
  simp only [ensure_edge_entry]
  cases h : findEdge (canonKey a b) es <;> simp [h]

theorem ensure_find_self (es : Edges) (a b : Nat) :
    findEdge (canonKey a b) (ensure_edge_entry es a b).1 =
      some ((findEdge (canonKey a b) es).getD emptyEdge) := by
  simp only [ensure_edge_entry]
  cases h : findEdge (canonKey a b) es with
  | some e => simp [h]
  | none =>
    simp only [h]
    rw [findEdge_append, h]
    simp [findEdge]

theorem ensure_find_other (es : Edges) (a b : Nat) (k : Nat × Nat)
    (hk : k ≠ canonKey a b) :
    findEdge k (ensure_edge_entry es a b).1 = findEdge k es := by
  simp only [ensure_edge_entry]
  cases h : findEdge (canonKey a b) es with
  | some e => simp [h]
  | none =>
    simp only [h]
    rw [findEdge_append]
    cases h2 : findEdge k es with
    | some e => rfl
    | none => simp [findEdge, Ne.symm hk]

theorem canonKey_lt (a b : Nat) (hab : a ≠ b) :
    (canonKey a b).1 < (canonKey a b).2 := by
  unfold canonKey
  by_cases h : a < b
  · simp [h]
  · simp [h]
    omega

theorem canonKey_eq_of_lt (a b : Nat) (hab : a < b) : canonKey a b = (a, b) := by
  simp [canonKey, hab]

/-! ### The door/window component rule (claim C2) -/

theorem mem_ringRoomIds (h w : Nat) (rmap : Cell → Nat) (K : Cell → Bool)
    (x : Nat) :
    x ∈ ringRoomIds h w rmap K ↔ x ∈ (ringCells h w K).map rmap ∧ 0 < x := by
  rw [ringRoomIds, List.mem_filter]
  rw [mem_sortedDedup]
  simp

theorem ringRoomIds_sorted (h w : Nat) (rmap : Cell → Nat) (K : Cell → Bool) :
    (ringRoomIds h w rmap K).Pairwise (· < ·) :=
  (sortedDedup_sorted _).sublist (List.filter_sublist _)

theorem ringRoomIds_length_eq_card (h w : Nat) (rmap : Cell → Nat)
    (K : Cell → Bool) :
    (ringRoomIds h w rmap K).length =
      (((ringCells h w K).map rmap).filter (fun i => decide (0 < i))).toFinset.card := by
  have hnd : (ringRoomIds h w rmap K).Nodup :=
    (sortedDedup_nodup _).filter _
  have hset : (ringRoomIds h w rmap K).toFinset =
      (((ringCells h w K).map rmap).filter (fun i => decide (0 < i))).toFinset := by
    apply Finset.ext
    intro x
    rw [List.mem_toFinset, List.mem_toFinset, mem_ringRoomIds, List.mem_filter]
    simp
  rw [← hset, List.toFinset_card_of_nodup hnd]

/-- Claim C2: for every 4-connected component (index `lbl` of an arbitrary
labelling `cm`, as produced by the door/window pass) and any current edge
dictionary, the loop body records exactly one connection — door or window
type added, `num_door_window` incremented by 1, `area_door_window`
incremented by the component's pixel count, all other keys untouched — when
the set of distinct positive room ids on the component's one-pixel dilation
ring has exactly two elements, and leaves the dictionary unchanged when that
set has zero, one, or three or more elements. -/
theorem door_window_component_rule (h w : Nat) (rmap cm : Cell → Nat)
    (lbl : Nat) (isDoor : Bool) (es : Edges) :
    ((((ringCells h w (fun c => decide (cm c = lbl))).map rmap).filter
        (fun i => decide (0 < i))).toFinset.card ≠ 2 →
      doorWindowUpdate h w rmap isDoor es (regionCells h w cm lbl)
        (fun c => decide (cm c = lbl)) = es) ∧
    ((((ringCells h w (fun c => decide (cm c = lbl))).map rmap).filter
        (fun i => decide (0 < i))).toFinset.card = 2 →
      ∃ a b : Nat, 0 < a ∧ a < b ∧
        (((ringCells h w (fun c => decide (cm c = lbl))).map rmap).filter
          (fun i => decide (0 < i))).toFinset = {a, b} ∧
        findEdge (a, b) (doorWindowUpdate h w rmap isDoor es
            (regionCells h w cm lbl) (fun c => decide (cm c = lbl))) =
          some (let e0 := (findEdge (a, b) es).getD emptyEdge
            { e0 with
              connection_types :=
                if isDoor then { e0.connection_types with door := true }
                else { e0.connection_types with window := true },
              num_door_window := e0.num_door_window + 1,
              area_door_window :=
                e0.area_door_window + (regionCells h w cm lbl).length }) ∧
        ∀ k : Nat × Nat, k ≠ (a, b) →
          findEdge k (doorWindowUpdate h w rmap isDoor es
            (regionCells h w cm lbl) (fun c => decide (cm c = lbl))) =
            findEdge k es) := by
  set K : Cell → Bool := fun c => decide (cm c = lbl) with hK
  set comp := regionCells h w cm lbl with hcomp
  have hbridge := ringRoomIds_length_eq_card h w rmap K
  constructor
  · intro hcard
    have hlen : (ringRoomIds h w rmap K).length ≠ 2 := by
      rw [hbridge]
      exact hcard
    simp only [doorWindowUpdate]
    rw [if_neg hlen]
  · intro hcard
    have hlen : (ringRoomIds h w rmap K).length = 2 := by
      rw [hbridge]
      exact hcard
    obtain ⟨a, b, hids⟩ := List.length_eq_two.mp hlen
    have hso := ringRoomIds_sorted h w rmap K
    rw [hids] at hso
    have hab : a < b := by
      rw [List.pairwise_cons] at hso
      exact hso.1 b (by simp)
    have hmema : a ∈ ringRoomIds h w rmap K := by rw [hids]; simp
    have hpa : 0 < a := ((mem_ringRoomIds h w rmap K a).mp hmema).2
    have hkey : canonKey a b = (a, b) := canonKey_eq_of_lt a b hab
    have hresult : doorWindowUpdate h w rmap isDoor es comp K =
        modifyEdge (ensure_edge_entry es a b).2 (fun e =>
          { e with
            connection_types :=
              if isDoor then { e.connection_types with door := true }
              else { e.connection_types with window := true },
            num_door_window := e.num_door_window + 1,
            area_door_window := e.area_door_window + comp.length })
          (ensure_edge_entry es a b).1 := by
      simp only [doorWindowUpdate, hids]
      rw [if_pos (by simp)]
      rfl
    refine ⟨a, b, hpa, hab, ?_, ?_, ?_⟩
    · apply Finset.ext
      intro x
      have hx : x ∈ ringRoomIds h w rmap K ↔
          x ∈ ((ringCells h w K).map rmap).filter (fun i => decide (0 < i)) := by
        rw [mem_ringRoomIds, List.mem_filter]
        simp
      rw [List.mem_toFinset, ← hx, hids]
      simp
    · rw [hresult, ensure_key, hkey, findEdge_modify_self, ← hkey,
        ensure_find_self, hkey]
      rfl
    · intro k hkne
      rw [hresult, ensure_key, hkey]
      rw [findEdge_modify_other _ _ _ _ hkne]
      exact ensure_find_other es a b k (by rw [hkey]; exact hkne)

/-- Witness for C2: a 1×1 grid whose single icon component touches no room
(the region map is identically 0), so the dictionary stays empty. -/
theorem door_window_component_rule_witness :
    (((ringCells 1 1 (fun c => decide ((fun (_ : Cell) => (1 : Nat)) c = 1))).map
        (fun (_ : Cell) => (0 : Nat))).filter
        (fun i => decide (0 < i))).toFinset.card ≠ 2 ∧
    doorWindowUpdate 1 1 (fun _ => 0) true []
      (regionCells 1 1 (fun _ => 1) 1)
      (fun c => decide ((fun (_ : Cell) => (1 : Nat)) c = 1)) = [] :=
  ⟨by decide,
    (door_window_component_rule 1 1 (fun _ => 0) (fun _ => 1) 1 true []).1 (by decide)⟩

/-! ### The directed penetration scan (claim C3) -/

/-- The pixel reached after `s` steps of a scan started at `(sx, sy)` in
direction `(dx, dy)`. -/
def ray (sx sy dx dy : Int) (s : Nat) : Cell :=
  (sx + dx * (s : Int), sy + dy * (s : Int))

theorem range_map_shift {α : Type} (g : Nat → α) (k : Nat) :
    (List.range (k + 1)).map g = g 0 :: (List.range k).map (fun s => g (s + 1)) := by
  rw [List.range_succ_eq_map, List.map_cons, List.map_map]
  rfl

theorem penetrate_go (h w : Nat) (rmap : Cell → Nat) (wallA : Cell → Int)
    (rid : Nat) (dx dy sx sy : Int) (T : Nat) (hTpos : 0 < T)
    (hT : ∀ s : Nat, s < T →
      inB h w (ray sx sy dx dy s) = true ∧ wallA (ray sx sy dx dy s) = 1)
    (hTe : ¬(inB h w (ray sx sy dx dy T) = true ∧ wallA (ray sx sy dx dy T) = 1)) :
    ∀ fuel t acc, t ≤ T → T < fuel + t →
      penetrate h w rmap wallA rid dx dy fuel
          (ray sx sy dx dy t).1 (ray sx sy dx dy t).2 acc =
        ((if inB h w (ray sx sy dx dy T) = true then
            (if rmap (ray sx sy dx dy T) ≠ 0 ∧ rmap (ray sx sy dx dy T) ≠ rid then
              some (rmap (ray sx sy dx dy T), ray sx sy dx dy (T - 1))
            else none)
          else none),
         acc ++ (List.range (T - t)).map (fun s => ray sx sy dx dy (t + s))) := by
  intro fuel
  induction fuel with
  | zero => intro t acc ht hfuel; omega
  | succ fuel ih =>
    intro t acc ht hfuel
    by_cases htT : t = T
    · subst htT
      rw [penetrate]
      by_cases hin : inB h w (ray sx sy dx dy t) = true
      · have hwall : wallA (ray sx sy dx dy t) ≠ 1 := by
          intro hc
          exact hTe ⟨hin, hc⟩
        rw [if_neg (by simp [hin]), if_neg hwall]
        have hanchor : ((ray sx sy dx dy t).1 - dx, (ray sx sy dx dy t).2 - dy) =
            ray sx sy dx dy (t - 1) := by
          simp only [ray]
          have hcast : ((t - 1 : Nat) : Int) = (t : Int) - 1 := by omega
          rw [hcast]
          simp only [Prod.mk.injEq]
          constructor <;> ring
        by_cases hr : rmap (ray sx sy dx dy t) ≠ 0 ∧ rmap (ray sx sy dx dy t) ≠ rid
        · rw [if_pos hr, if_pos hin, if_pos hr]
          simp [hanchor]
        · rw [if_neg hr, if_pos hin, if_neg hr]
          simp
      · rw [if_pos (by simp [Bool.not_eq_true] at hin; simp [hin])]
        rw [if_neg (by simp [Bool.not_eq_true] at hin; simp [hin])]
        simp
    · have htlt : t < T := by omega
      obtain ⟨hin, hwall⟩ := hT t htlt
      rw [penetrate]
      rw [if_neg (by simp [hin]), if_pos hwall]
      have hnext : ((ray sx sy dx dy t).1 + dx, (ray sx sy dx dy t).2 + dy) =
          ray sx sy dx dy (t + 1) := by
        simp only [ray]
        push_cast
        simp only [Prod.mk.injEq]
        constructor <;> ring
      have hres := ih (t + 1) (acc ++ [ray sx sy dx dy t]) (by omega) (by omega)
      rw [← hnext] at hres
      rw [hres]
      congr 1
      have hsplit : T - t = (T - (t + 1)) + 1 := by omega
      rw [hsplit, range_map_shift]
      simp only [List.append_assoc, List.cons_append, List.nil_append,
        List.singleton_append, Nat.add_zero]
      congr 1
      refine congrArg (List.cons _) ?_
      apply List.map_congr_left
      intro s hs
      congr 1
      omega

theorem ray_exits (h w : Nat) (dx dy sx sy : Int) (hdir : (dx, dy) ∈ dirsDA)
    (hin : inB h w (sx, sy) = true) :
    inB h w (ray sx sy dx dy (h + w)) = false := by
  have hb := inB_iff.mp hin
  simp only [dirsDA, List.mem_cons, List.mem_singleton, Prod.mk.injEq,
    List.not_mem_nil, or_false] at hdir
  rw [Bool.eq_false_iff]
  intro hcontr
  rw [inB_iff] at hcontr
  simp only [ray] at hcontr
  rcases hdir with ⟨rfl, rfl⟩ | ⟨rfl, rfl⟩ | ⟨rfl, rfl⟩ | ⟨rfl, rfl⟩ <;>
    (simp only at hcontr hb; push_cast at hcontr; omega)

/-- Claim C3: from an in-bounds wall neighbour `(sx, sy)` of a boundary
pixel, the directed penetration scan walks the ray in direction `(dx, dy)`
up to the first pixel `T` that is out of bounds or not a wall, recording
exactly the wall pixels `0, …, T-1`; it returns no connection when the image
boundary is reached, returns `(encountered_room, anchor)` with
`encountered_room` the region id of the first non-wall pixel and the anchor
the last wall pixel before the exit exactly when that id is positive and
differs from the originating room, and returns no connection when the scan
exits into background (id 0) or into the originating room. -/
theorem penetration_scan_rule (h w : Nat) (rmap : Cell → Nat)
    (wallA : Cell → Int) (rid : Nat) (dx dy sx sy : Int)
    (hdir : (dx, dy) ∈ dirsDA)
    (hin : inB h w (sx, sy) = true) (hwall : wallA (sx, sy) = 1) :
    ∃ T : Nat, 0 < T ∧
      (∀ s : Nat, s < T → inB h w (ray sx sy dx dy s) = true ∧
        wallA (ray sx sy dx dy s) = 1) ∧
      ¬(inB h w (ray sx sy dx dy T) = true ∧ wallA (ray sx sy dx dy T) = 1) ∧
      (penetrate h w rmap wallA rid dx dy (h + w + 2) sx sy []).2 =
        (List.range T).map (fun s => ray sx sy dx dy s) ∧
      (inB h w (ray sx sy dx dy T) = false →
        (penetrate h w rmap wallA rid dx dy (h + w + 2) sx sy []).1 = none) ∧
      (inB h w (ray sx sy dx dy T) = true →
        wallA (ray sx sy dx dy T) ≠ 1 ∧
        (rmap (ray sx sy dx dy T) ≠ 0 ∧ rmap (ray sx sy dx dy T) ≠ rid →
          (penetrate h w rmap wallA rid dx dy (h + w + 2) sx sy []).1 =
            some (rmap (ray sx sy dx dy T), ray sx sy dx dy (T - 1))) ∧
        ((rmap (ray sx sy dx dy T) = 0 ∨ rmap (ray sx sy dx dy T) = rid) →
          (penetrate h w rmap wallA rid dx dy (h + w + 2) sx sy []).1 = none)) := by
  have hray0 : ray sx sy dx dy 0 = (sx, sy) := by
    simp [ray]
  have hEx : ∃ t : Nat, ¬(inB h w (ray sx sy dx dy t) = true ∧
      wallA (ray sx sy dx dy t) = 1) := by
    refine ⟨h + w, ?_⟩
    rw [ray_exits h w dx dy sx sy hdir hin]
    simp
  classical
  set T := Nat.find hEx with hTdef
  have hPT := Nat.find_spec hEx
  rw [← hTdef] at hPT
  have hTmin : ∀ s : Nat, s < T →
      inB h w (ray sx sy dx dy s) = true ∧ wallA (ray sx sy dx dy s) = 1 := by
    intro s hs
    have := Nat.find_min hEx hs
    exact Decidable.not_not.mp this
  have hTle : T ≤ h + w := by
    apply Nat.find_le
    rw [ray_exits h w dx dy sx sy hdir hin]
    simp
  have hTpos : 0 < T := by
    rcases Nat.eq_zero_or_pos T with h0 | hp
    · exfalso
      rw [h0] at hPT
      rw [hray0] at hPT
      exact hPT ⟨hin, hwall⟩
    · exact hp
  have happ := penetrate_go h w rmap wallA rid dx dy sx sy T hTpos hTmin hPT
    (h + w + 2) 0 [] (by omega) (by omega)
  rw [hray0] at happ
  simp only [Nat.sub_zero, Nat.zero_add, List.nil_append] at happ
  refine ⟨T, hTpos, hTmin, hPT, ?_, ?_, ?_⟩
  · rw [happ]
  · intro hfalse
    rw [happ]
    simp [hfalse]
  · intro htrue
    have hnw : wallA (ray sx sy dx dy T) ≠ 1 := by
      intro hc
      exact hPT ⟨htrue, hc⟩
    refine ⟨hnw, ?_, ?_⟩
    · intro hsucc
      rw [happ]
      simp only [if_pos htrue, if_pos hsucc]
    · intro hfail
      rw [happ]
      rw [if_pos htrue, if_neg ?_]
      intro hcontr
      rcases hfail with hf | hf
      · exact hcontr.1 hf
      · exact hcontr.2 hf

/-- Witness for C3 on a concrete 1×3 strip `room, wall, room`: the scan east
from the wall pixel at `(0, 1)` exits after one step into region 2. -/
theorem penetration_scan_rule_witness :
    (penetrate 1 3
        (updF (updF (fun _ => 0) ((0 : Int), (0 : Int)) 1) ((0 : Int), (2 : Int)) 2)
        (fun c => if c = ((0 : Int), (1 : Int)) then 1 else 0) 1 0 1
        (1 + 3 + 2) 0 1 []).1 =
      some (2, (0, 1)) := by
  obtain ⟨T, hTpos, hTmin, hPT, hseg, hnone, hsome⟩ :=
    penetration_scan_rule 1 3
      (updF (updF (fun _ => 0) ((0 : Int), (0 : Int)) 1) ((0 : Int), (2 : Int)) 2)
      (fun c => if c = ((0 : Int), (1 : Int)) then 1 else 0) 1 0 1 0 1
      (by decide) (by decide) (by decide)
  have hT1 : T = 1 := by
    rcases Nat.lt_or_ge T 2 with hlt | hge
    · omega
    · exfalso
      have := hTmin 1 (by omega)
      revert this
      decide
  subst hT1
  have h2 := (hsome (by decide)).2.1 (by decide)
  simpa using h2

/-! ### Exterior exclusion (claim C4) -/

theorem excludeSegment_iff (h w : Nat) (wl : Cell → Int) (seg : List Cell) :
    excludeSegment h w wl seg = true ↔
      ∃ p ∈ seg, ∃ d ∈ dirsDA, inB h w (p.1 + d.1, p.2 + d.2) = true ∧
        wl (p.1 + d.1, p.2 + d.2) ∈ exclude_indices_walls := by
  simp [excludeSegment, List.any_eq_true]

/-- Claim C4: a candidate wall segment (the deduplicated result of the
penetration-and-extension scan) one of whose pixels has an in-bounds
4-neighbour with an excluded raw label is discarded whole: the commit step
leaves both the edge dictionary and the tie-break map exactly as they were,
so the segment contributes no `num_wall`, `area_wall` or connection-type
change. -/
theorem exterior_exclusion_rule (h w : Nat) (rmap : Cell → Nat)
    (wallA : Cell → Int) (wl : Cell → Int) (rid enc : Nat) (dx dy : Int)
    (anchor : Cell) (seg0 : List Cell) (st : WallState)
    (hex : ∃ p ∈ (segExtend h w rmap wallA rid enc dx dy anchor seg0
        (seg0.foldl (fun v q => updF v q true) st.visited)).2.dedup,
      ∃ d ∈ dirsDA, inB h w (p.1 + d.1, p.2 + d.2) = true ∧
        wl (p.1 + d.1, p.2 + d.2) ∈ exclude_indices_walls) :
    (wallCommit h w rmap wallA wl rid enc dx dy anchor seg0 st).edges =
        st.edges ∧
      (wallCommit h w rmap wallA wl rid enc dx dy anchor seg0 st).segMap =
        st.segMap := by
  have hexB : excludeSegment h w wl
      (segExtend h w rmap wallA rid enc dx dy anchor seg0
        (seg0.foldl (fun v q => updF v q true) st.visited)).2.dedup = true :=
    (excludeSegment_iff _ _ _ _).mpr hex
  simp only [wallCommit]
  rw [if_pos hexB]
  exact ⟨rfl, rfl⟩

/-- Witness for C4 on a 1×2 grid: the single segment pixel `(0,0)` has the
in-bounds neighbour `(0,1)` whose raw label 0 is excluded, so an empty state
stays empty. -/
theorem exterior_exclusion_rule_witness :
    (∃ p ∈ (segExtend 1 2 (fun _ => 0) (fun _ => 0) 1 2 0 1 ((0 : Int), (0 : Int))
        [((0 : Int), (0 : Int))]
        ([((0 : Int), (0 : Int))].foldl (fun v q => updF v q true)
          (WallState.mk [] [] (fun _ => false)).visited)).2.dedup,
      ∃ d ∈ dirsDA, inB 1 2 (p.1 + d.1, p.2 + d.2) = true ∧
        (fun (_ : Cell) => (0 : Int)) (p.1 + d.1, p.2 + d.2) ∈ exclude_indices_walls) ∧
    (wallCommit 1 2 (fun _ => 0) (fun _ => 0) (fun _ => 0) 1 2 0 1
        ((0 : Int), (0 : Int)) [((0 : Int), (0 : Int))]
        (WallState.mk [] [] (fun _ => false))).edges = [] := by
  refine ⟨by decide, ?_⟩
  exact (exterior_exclusion_rule 1 2 (fun _ => 0) (fun _ => 0) (fun _ => 0) 1 2 0 1
      ((0 : Int), (0 : Int)) [((0 : Int), (0 : Int))]
      (WallState.mk [] [] (fun _ => false)) (by decide)).1

/-! ### The wall tie-break keyed by the raw label value (claim C1) -/

/-- A 5×5 plan with three rooms (rows 0, 2, 4, category 3) separated by two
disjoint one-pixel wall blobs (rows 1 and 3, category 2). -/
def gC1 : Cell → Int :=
  fun c => if c.1 = 1 ∨ c.1 = 3 then 2 else 3

/-- The single edge record the pipeline produces on `gC1`: one wall
connection of contact length 5. -/
def edgeC1 : EdgeData :=
  { connection_types := ⟨false, false, true⟩, num_door_window := 0,
    area_door_window := 0, num_wall := 1, area_wall := 5 }

set_option maxRecDepth 100000

/-- Claim C1 evaluated on `gC1` through the real pipeline: segmentation
yields rooms 1, 2, 3, and `detect_adjacency` returns a single wall edge
`(1,2)` — the wall blob of row 3, which alone separates rooms 2 and 3 with
an unambiguous single attribution, is evicted because the tie-break map is
keyed by `wall_label_array[base]`, the raw category value at the anchor
pixel, which is the constant wall code 2 for every segment of every blob,
rather than per distinct physical wall blob. -/
theorem tie_break_global_eviction :
    detect_adjacency 5 5 (extract_rooms 5 5 gC1).1
        (fun c => if gC1 c = 2 then 1 else 0) (fun _ => 0) gC1 =
      [((1, 2), edgeC1)] ∧
    (extract_rooms 5 5 gC1).2.map Room.id = [1, 2, 3] := by
  decide

/-! ### Dictionary bookkeeping lemmas for the wall-pass invariants -/

theorem findEdge_none_iff (k : Nat × Nat) (es : Edges) :
    findEdge k es = none ↔ k ∉ es.map Prod.fst := by
  induction es with
  | nil => simp [findEdge]
  | cons q rest ih =>
    obtain ⟨k2, e⟩ := q
    by_cases hk : k2 = k
    · subst hk
      simp [findEdge]
    · rw [findEdge, if_neg hk, ih]
      simp [Ne.symm hk]

theorem findEdge_eq_some_of_mem (es : Edges) (hnd : (es.map Prod.fst).Nodup)
    (p : (Nat × Nat) × EdgeData) (hp : p ∈ es) : findEdge p.1 es = some p.2 := by
  induction es with
  | nil => cases hp
  | cons q rest ih =>
    obtain ⟨k2, e⟩ := q
    rw [List.map_cons, List.nodup_cons] at hnd
    rcases List.mem_cons.mp hp with rfl | hp2
    · rw [findEdge, if_pos rfl]
    · have hne : k2 ≠ p.1 := by
        intro hc
        exact hnd.1 (hc ▸ (List.mem_map.mpr ⟨p, hp2, rfl⟩))
      rw [findEdge, if_neg hne]
      exact ih hnd.2 hp2

theorem mem_of_findEdge (es : Edges) (k : Nat × Nat) (e : EdgeData)
    (h : findEdge k es = some e) : (k, e) ∈ es := by
  induction es with
  | nil => exact absurd h (by simp [findEdge])
  | cons q rest ih =>
    obtain ⟨k2, e2⟩ := q
    by_cases hk : k2 = k
    · subst hk
      rw [findEdge, if_pos rfl] at h
      exact List.mem_cons.mpr (Or.inl (by rw [Option.some.inj h]))
    · rw [findEdge, if_neg hk] at h
      exact List.mem_cons.mpr (Or.inr (ih h))

theorem modifyEdge_map_fst (k : Nat × Nat) (f : EdgeData → EdgeData) (es : Edges) :
    (modifyEdge k f es).map Prod.fst = es.map Prod.fst := by
  induction es with
  | nil => rfl
  | cons q rest ih =>
    obtain ⟨k2, e⟩ := q
    by_cases hk : k2 = k
    · rw [modifyEdge, if_pos hk]
      simp
    · rw [modifyEdge, if_neg hk]
      simp [ih]

theorem ensure_nodup (es : Edges) (a b : Nat)
    (hnd : (es.map Prod.fst).Nodup) :
    ((ensure_edge_entry es a b).1.map Prod.fst).Nodup := by
  simp only [ensure_edge_entry]
  cases h : findEdge (canonKey a b) es with
  | some e => simpa using hnd
  | none =>
    simp only
    rw [List.map_append]
    simp only [List.map_cons, List.map_nil]
    rw [List.nodup_append]
    refine ⟨hnd, by simp, ?_⟩
    intro x hx
    simp only [List.mem_singleton]
    intro hc
    subst hc
    exact ((findEdge_none_iff _ _).mp h) hx

theorem removeEdge_find_other (k k2 : Nat × Nat) (es : Edges) (hk : k2 ≠ k) :
    findEdge k2 (removeEdge k es) = findEdge k2 es := by
  induction es with
  | nil => rfl
  | cons q rest ih =>
    obtain ⟨k3, e⟩ := q
    by_cases h3 : k3 = k
    · subst h3
      rw [removeEdge, if_pos rfl, findEdge, if_neg (fun hc => hk hc.symm)]
    · rw [removeEdge, if_neg h3]
      by_cases h4 : k3 = k2
      · rw [findEdge, findEdge, if_pos h4, if_pos h4]
      · rw [findEdge, findEdge, if_neg h4, if_neg h4, ih]

theorem removeEdge_find_self (k : Nat × Nat) (es : Edges)
    (hnd : (es.map Prod.fst).Nodup) :
    findEdge k (removeEdge k es) = none := by
  induction es with
  | nil => rfl
  | cons q rest ih =>
    obtain ⟨k3, e⟩ := q
    rw [List.map_cons, List.nodup_cons] at hnd
    by_cases h3 : k3 = k
    · subst h3
      rw [removeEdge, if_pos rfl, findEdge_none_iff]
      exact hnd.1
    · rw [removeEdge, if_neg h3, findEdge, if_neg h3]
      exact ih hnd.2

theorem removeEdge_map_fst_sublist (k : Nat × Nat) (es : Edges) :
    ((removeEdge k es).map Prod.fst).Sublist (es.map Prod.fst) := by
  induction es with
  | nil => simp [removeEdge]
  | cons q rest ih =>
    obtain ⟨k3, e⟩ := q
    by_cases h3 : k3 = k
    · rw [removeEdge, if_pos h3]
      simp only [List.map_cons]
      exact (List.sublist_cons_self _ _)
    · rw [removeEdge, if_neg h3]
      simp only [List.map_cons]
      exact (ih.cons₂ k3)

/-! Segment-map lemmas -/

/-- Number of entries of `segment_label_map` currently attributing their
segment to the room pair `k`. -/
def smCount (sm : SegMap) (k : Nat × Nat) : Nat :=
  (sm.filter (fun q => decide (q.2.1 = k))).length

theorem findSeg_none_iff (l : Int) (sm : SegMap) :
    findSeg l sm = none ↔ l ∉ sm.map Prod.fst := by
  induction sm with
  | nil => simp [findSeg]
  | cons q rest ih =>
    obtain ⟨l2, v⟩ := q
    by_cases hl : l2 = l
    · subst hl
      simp [findSeg]
    · rw [findSeg, if_neg hl, ih]
      simp [Ne.symm hl]

theorem mem_of_findSeg (sm : SegMap) (l : Int) (v : (Nat × Nat) × Nat)
    (h : findSeg l sm = some v) : (l, v) ∈ sm := by
  induction sm with
  | nil => exact absurd h (by simp [findSeg])
  | cons q rest ih =>
    obtain ⟨l2, v2⟩ := q
    by_cases hl : l2 = l
    · subst hl
      rw [findSeg, if_pos rfl] at h
      exact List.mem_cons.mpr (Or.inl (by rw [Option.some.inj h]))
    · rw [findSeg, if_neg hl] at h
      exact List.mem_cons.mpr (Or.inr (ih h))

theorem setSeg_absent (l : Int) (v : (Nat × Nat) × Nat) (sm : SegMap)
    (h : findSeg l sm = none) : setSeg l v sm = sm ++ [(l, v)] := by
  induction sm with
  | nil => rfl
  | cons q rest ih =>
    obtain ⟨l2, v2⟩ := q
    by_cases hl : l2 = l
    · subst hl
      rw [findSeg, if_pos rfl] at h
      cases h
    · rw [findSeg, if_neg hl] at h
      rw [setSeg, if_neg hl, ih h]
      simp

theorem setSeg_map_fst_present (l : Int) (v : (Nat × Nat) × Nat) (sm : SegMap)
    (h : l ∈ sm.map Prod.fst) :
    (setSeg l v sm).map Prod.fst = sm.map Prod.fst := by
  induction sm with
  | nil => simp at h
  | cons q rest ih =>
    obtain ⟨l2, v2⟩ := q
    by_cases hl : l2 = l
    · rw [setSeg, if_pos hl]
      simp
    · rw [setSeg, if_neg hl]
      simp only [List.map_cons]
      rw [ih]
      simp only [List.map_cons, List.mem_cons] at h
      rcases h with hc | hc
      · exact absurd hc.symm hl
      · exact hc

theorem smCount_append (sm : SegMap) (q : Int × ((Nat × Nat) × Nat))
    (k : Nat × Nat) :
    smCount (sm ++ [q]) k = smCount sm k + (if q.2.1 = k then 1 else 0) := by
  rw [smCount, smCount, List.filter_append]
  by_cases hq : q.2.1 = k
  · simp [hq]
  · simp [hq]

theorem smCount_cons (q : Int × ((Nat × Nat) × Nat)) (sm : SegMap)
    (k : Nat × Nat) :
    smCount (q :: sm) k = smCount sm k + (if q.2.1 = k then 1 else 0) := by
  rw [smCount, smCount, List.filter_cons]
  by_cases hq : q.2.1 = k
  · simp [hq]
  · simp [hq]

theorem smCount_setSeg_present (l : Int) (vk : Nat × Nat) (vl : Nat)
    (pv : (Nat × Nat) × Nat)
    (sm : SegMap) (hnd : (sm.map Prod.fst).Nodup) (h : findSeg l sm = some pv)
    (k : Nat × Nat) :
    smCount (setSeg l (vk, vl) sm) k + (if pv.1 = k then 1 else 0) =
      smCount sm k + (if vk = k then 1 else 0) := by
  induction sm with
  | nil => exact absurd h (by simp [findSeg])
  | cons q rest ih =>
    obtain ⟨l2, v2⟩ := q
    rw [List.map_cons, List.nodup_cons] at hnd
    by_cases hl : l2 = l
    · subst hl
      rw [findSeg, if_pos rfl] at h
      have hpv : v2 = pv := Option.some.inj h
      subst hpv
      rw [setSeg, if_pos rfl, smCount_cons, smCount_cons]
      by_cases h1 : v2.1 = k <;> by_cases h2 : vk = k <;>
        simp only [h1, h2, if_true, if_false] <;> omega
    · rw [findSeg, if_neg hl] at h
      rw [setSeg, if_neg hl, smCount_cons, smCount_cons]
      have hrec := ih hnd.2 h
      by_cases h2 : v2.1 = k <;> simp only [h2, if_true, if_false] <;> omega

theorem smCount_zero (sm : SegMap) (k : Nat × Nat)
    (h : ∀ q ∈ sm, q.2.1 ≠ k) : smCount sm k = 0 := by
  rw [smCount, List.length_eq_zero, List.filter_eq_nil_iff]
  intro q hq
  simp [h q hq]

theorem smCount_pos (sm : SegMap) (l : Int) (pv : (Nat × Nat) × Nat)
    (h : findSeg l sm = some pv) : 1 ≤ smCount sm pv.1 := by
  have hmem := mem_of_findSeg sm l pv h
  rw [smCount]
  have : (l, pv) ∈ sm.filter (fun q => decide (q.2.1 = pv.1)) := by
    rw [List.mem_filter]
    exact ⟨hmem, by simp⟩
  exact List.length_pos.mpr (List.ne_nil_of_mem this)

/-- Total recorded contact length of the `segment_label_map` entries
currently attributed to the room pair `k`. -/
def smArea (sm : SegMap) (k : Nat × Nat) : Nat :=
  ((sm.filter (fun q => decide (q.2.1 = k))).map (fun q => q.2.2)).sum

theorem smArea_cons (q : Int × ((Nat × Nat) × Nat)) (sm : SegMap)
    (k : Nat × Nat) :
    smArea (q :: sm) k = smArea sm k + (if q.2.1 = k then q.2.2 else 0) := by
  rw [smArea, smArea, List.filter_cons]
  by_cases hq : q.2.1 = k
  · simp [hq]
    omega
  · simp [hq]

theorem smArea_append (sm : SegMap) (q : Int × ((Nat × Nat) × Nat))
    (k : Nat × Nat) :
    smArea (sm ++ [q]) k = smArea sm k + (if q.2.1 = k then q.2.2 else 0) := by
  rw [smArea, smArea, List.filter_append]
  by_cases hq : q.2.1 = k
  · simp [hq]
  · simp [hq]

theorem smArea_setSeg_present (l : Int) (vk : Nat × Nat) (vl : Nat)
    (pv : (Nat × Nat) × Nat)
    (sm : SegMap) (hnd : (sm.map Prod.fst).Nodup) (h : findSeg l sm = some pv)
    (k : Nat × Nat) :
    smArea (setSeg l (vk, vl) sm) k + (if pv.1 = k then pv.2 else 0) =
      smArea sm k + (if vk = k then vl else 0) := by
  induction sm with
  | nil => exact absurd h (by simp [findSeg])
  | cons q rest ih =>
    obtain ⟨l2, v2⟩ := q
    rw [List.map_cons, List.nodup_cons] at hnd
    by_cases hl : l2 = l
    · subst hl
      rw [findSeg, if_pos rfl] at h
      have hpv : v2 = pv := Option.some.inj h
      subst hpv
      rw [setSeg, if_pos rfl, smArea_cons, smArea_cons]
      by_cases h1 : v2.1 = k <;> by_cases h2 : vk = k <;>
        simp only [h1, h2, if_true, if_false] <;> omega
    · rw [findSeg, if_neg hl] at h
      rw [setSeg, if_neg hl, smArea_cons, smArea_cons]
      have hrec := ih hnd.2 h
      by_cases h2 : v2.1 = k <;> simp only [h2, if_true, if_false] <;> omega

theorem smCount_eq_zero_iff (sm : SegMap) (k : Nat × Nat) :
    smCount sm k = 0 ↔ ∀ q ∈ sm, q.2.1 ≠ k := by
  rw [smCount, List.length_eq_zero, List.filter_eq_nil_iff]
  constructor
  · intro hz q hq
    have := hz q hq
    simpa using this
  · intro ha q hq
    simpa using ha q hq

theorem smArea_zero (sm : SegMap) (k : Nat × Nat)
    (h : smCount sm k = 0) : smArea sm k = 0 := by
  rw [smCount, List.length_eq_zero] at h
  rw [smArea, h]
  rfl

theorem smArea_of_single (sm : SegMap) (l : Int) (pv : (Nat × Nat) × Nat)
    (k : Nat × Nat) (hmem : (l, pv) ∈ sm) (hpk : pv.1 = k)
    (hcnt : smCount sm k = 1) : smArea sm k = pv.2 := by
  have hmf : (l, pv) ∈ sm.filter (fun q => decide (q.2.1 = k)) := by
    rw [List.mem_filter]
    exact ⟨hmem, by simp [hpk]⟩
  rw [smCount] at hcnt
  obtain ⟨x, hx⟩ := List.length_eq_one.mp hcnt
  rw [hx] at hmf
  have hxl : x = (l, pv) := by
    have := hmf
    simp only [List.mem_singleton] at this
    exact this.symm
  rw [smArea, hx, hxl]
  simp

theorem canonKey_pos (a b : Nat) (ha : 0 < a) (hb : 0 < b) :
    0 < (canonKey a b).1 := by
  rw [canonKey]
  by_cases h : a < b
  · simpa [h] using ha
  · simpa [h] using hb

/-! ### The edge-dictionary invariant of `detect_adjacency` (claims C7, C10) -/

/-- Per-entry consistency: canonical positive key, non-negative door/window
counters matching the door/window flags, wall flag matching a wall counter
that equals the number of tie-break attributions to this pair (and the wall
area their total length), and a non-empty connection-type set. -/
def EImp (sm : SegMap) (k : Nat × Nat) (e : EdgeData) : Prop :=
  0 < k.1 ∧ k.1 < k.2 ∧
  0 ≤ e.num_door_window ∧ 0 ≤ e.area_door_window ∧
  ((e.connection_types.door = true ∨ e.connection_types.window = true) ↔
    1 ≤ e.num_door_window) ∧
  (e.connection_types.wall = true ↔ 1 ≤ e.num_wall) ∧
  e.num_wall = (smCount sm k : Int) ∧
  e.area_wall = (smArea sm k : Int) ∧
  e.connection_types.isEmpty = false

/-- The wall-pass state invariant: well-keyed dictionaries, consistent
entries, and every tie-break attribution pointing at a live edge. -/
def EInv (es : Edges) (sm : SegMap) : Prop :=
  (es.map Prod.fst).Nodup ∧ (sm.map Prod.fst).Nodup ∧
  (∀ k e, findEdge k es = some e → EImp sm k e) ∧
  (∀ q ∈ sm, ∃ e, findEdge q.2.1 es = some e)

theorem EInv_nil : EInv [] [] := by
  refine ⟨by simp, by simp, ?_, ?_⟩
  · intro k e h
    exact absurd h (by simp [findEdge])
  · intro q hq
    cases hq

theorem EInv_doorWindowUpdate (h w : Nat) (rmap : Cell → Nat) (isDoor : Bool)
    (es : Edges) (comp : List Cell) (K : Cell → Bool) (sm : SegMap)
    (hinv : EInv es sm) :
    EInv (doorWindowUpdate h w rmap isDoor es comp K) sm := by
  obtain ⟨hnd, hsnd, hent, hsm⟩ := hinv
  by_cases hlen : (ringRoomIds h w rmap K).length = 2
  · obtain ⟨a, b, hids⟩ := List.length_eq_two.mp hlen
    have hso := ringRoomIds_sorted h w rmap K
    rw [hids] at hso
    have hab : a < b := by
      rw [List.pairwise_cons] at hso
      exact hso.1 b (by simp)
    have hmema : a ∈ ringRoomIds h w rmap K := by rw [hids]; simp
    have hpa : 0 < a := ((mem_ringRoomIds h w rmap K a).mp hmema).2
    have hkey : canonKey a b = (a, b) := canonKey_eq_of_lt a b hab
    set f : EdgeData → EdgeData := fun e =>
      { e with
        connection_types :=
          if isDoor then { e.connection_types with door := true }
          else { e.connection_types with window := true },
        num_door_window := e.num_door_window + 1,
        area_door_window := e.area_door_window + comp.length } with hf
    have hresult : doorWindowUpdate h w rmap isDoor es comp K =
        modifyEdge (ensure_edge_entry es a b).2 f (ensure_edge_entry es a b).1 := by
      simp only [doorWindowUpdate, hids]
      rw [if_pos (by simp)]
      rfl
    rw [hresult]
    refine ⟨?_, hsnd, ?_, ?_⟩
    · rw [modifyEdge_map_fst]
      exact ensure_nodup es a b hnd
    · intro k e hke
      by_cases hk : k = (a, b)
      · subst hk
        rw [ensure_key, hkey, findEdge_modify_self, ← hkey, ensure_find_self,
          hkey] at hke
        have he : e = f ((findEdge (a, b) es).getD emptyEdge) :=
          (Option.some.inj hke).symm
        subst he
        cases hold : findEdge (a, b) es with
        | some e0 =>
          obtain ⟨p1, p2, p3, p4, p5, p6, p7, p8, p9⟩ := hent (a, b) e0 hold
          simp only [Option.getD_some]
          refine ⟨hpa, hab, ?_, ?_, ?_, ?_, ?_, ?_, ?_⟩
          · simp only [hf]
            omega
          · simp only [hf]
            have := Int.natCast_nonneg comp.length
            omega
          · cases isDoor <;> simp only [hf] <;> simp <;> omega
          · cases isDoor <;> simp only [hf] <;> simpa using p6
          · simp only [hf]
            exact p7
          · simp only [hf]
            exact p8
          · cases isDoor <;> simp [hf, ConnTypes.isEmpty]
        | none =>
          have hzero : smCount sm (a, b) = 0 := by
            rw [smCount_eq_zero_iff]
            intro q hq hc
            obtain ⟨e2, he2⟩ := hsm q hq
            rw [hc, hold] at he2
            cases he2
          simp only [Option.getD_none]
          refine ⟨hpa, hab, ?_, ?_, ?_, ?_, ?_, ?_, ?_⟩
          · simp [hf, emptyEdge]
          · simp [hf, emptyEdge]
          · cases isDoor <;> simp [hf, emptyEdge]
          · cases isDoor <;> simp [hf, emptyEdge]
          · simp [hf, emptyEdge, hzero]
          · simp [hf, emptyEdge, smArea_zero sm (a, b) hzero]
          · cases isDoor <;> simp [hf, emptyEdge, ConnTypes.isEmpty]
      · rw [ensure_key, hkey, findEdge_modify_other _ _ _ _ hk,
          ensure_find_other es a b k (by rw [hkey]; exact hk)] at hke
        exact hent k e hke
    · intro q hq
      obtain ⟨e, he⟩ := hsm q hq
      by_cases hk : q.2.1 = (a, b)
      · refine ⟨f ((findEdge (a, b) es).getD emptyEdge), ?_⟩
        rw [hk, ensure_key, hkey, findEdge_modify_self, ← hkey,
          ensure_find_self, hkey]
        rfl
      · refine ⟨e, ?_⟩
        rw [ensure_key, hkey, findEdge_modify_other _ _ _ _ hk,
          ensure_find_other es a b _ (by rw [hkey]; exact hk)]
        exact he
  · simp only [doorWindowUpdate]
    rw [if_neg hlen]
    exact ⟨hnd, hsnd, hent, hsm⟩

theorem addWall_find_self (es : Edges) (rid enc : Nat) (len : Nat) :
    findEdge (canonKey rid enc) (addWall es rid enc len) =
      some { (findEdge (canonKey rid enc) es).getD emptyEdge with
        connection_types :=
          { ((findEdge (canonKey rid enc) es).getD
              emptyEdge).connection_types with wall := true },
        num_wall :=
          ((findEdge (canonKey rid enc) es).getD emptyEdge).num_wall + 1,
        area_wall :=
          ((findEdge (canonKey rid enc) es).getD emptyEdge).area_wall + len } := by
  simp only [addWall]
  rw [ensure_key, findEdge_modify_self, ensure_find_self]
  rfl

theorem addWall_find_other (es : Edges) (rid enc : Nat) (len : Nat)
    (k : Nat × Nat) (hk : k ≠ canonKey rid enc) :
    findEdge k (addWall es rid enc len) = findEdge k es := by
  simp only [addWall]
  rw [ensure_key, findEdge_modify_other _ _ _ _ hk,
    ensure_find_other es rid enc k hk]

theorem addWall_nodup (es : Edges) (rid enc : Nat) (len : Nat)
    (hnd : (es.map Prod.fst).Nodup) :
    ((addWall es rid enc len).map Prod.fst).Nodup := by
  simp only [addWall]
  rw [ensure_key, modifyEdge_map_fst]
  exact ensure_nodup es rid enc hnd

theorem rollbackWall_spec (es : Edges) (k : Nat × Nat) (len : Nat)
    (e0 : EdgeData) (hnd : (es.map Prod.fst).Nodup)
    (hk : findEdge k es = some e0) :
    (∀ k2, k2 ≠ k → findEdge k2 (rollbackWall es k len) = findEdge k2 es) ∧
    ((rollbackWall es k len).map Prod.fst).Sublist (es.map Prod.fst) ∧
    findEdge k (rollbackWall es k len) =
      (if e0.num_wall - 1 = 0 then
        (if (ConnTypes.mk e0.connection_types.door e0.connection_types.window
            false).isEmpty then none
         else some { e0 with
           num_wall := e0.num_wall - 1, area_wall := e0.area_wall - len,
           connection_types := ConnTypes.mk e0.connection_types.door
             e0.connection_types.window false })
       else some { e0 with
         num_wall := e0.num_wall - 1, area_wall := e0.area_wall - len }) := by
  simp only [rollbackWall]
  rw [findEdge_modify_self, hk]
  simp only [Option.map_some']
  set e1 : EdgeData := { e0 with
    num_wall := e0.num_wall - 1, area_wall := e0.area_wall - len } with he1
  have hnd1 : ((modifyEdge k (fun e =>
      { e with num_wall := e.num_wall - 1, area_wall := e.area_wall - len })
        es).map Prod.fst).Nodup := by
    rw [modifyEdge_map_fst]
    exact hnd
  by_cases hz : e1.num_wall = 0
  · rw [if_pos hz]
    rw [findEdge_modify_self, findEdge_modify_self, hk]
    simp only [Option.map_some']
    set e2 : ConnTypes := ConnTypes.mk e0.connection_types.door
      e0.connection_types.window false with he2
    have hze : e0.num_wall - 1 = 0 := hz
    by_cases hemp : ({ e1 with connection_types :=
        { e1.connection_types with wall := false } } :
          EdgeData).connection_types.isEmpty = true
    · rw [if_pos hemp]
      have hemp2 : e2.isEmpty = true := hemp
      refine ⟨?_, ?_, ?_⟩
      · intro k2 hk2
        rw [removeEdge_find_other _ _ _ hk2,
          findEdge_modify_other _ _ _ _ hk2, findEdge_modify_other _ _ _ _ hk2]
      · calc ((removeEdge k _).map Prod.fst).Sublist _ :=
              removeEdge_map_fst_sublist k _
          _ = es.map Prod.fst := by rw [modifyEdge_map_fst, modifyEdge_map_fst]
      · rw [removeEdge_find_self]
        · rw [if_pos hze, if_pos hemp2]
        · rw [modifyEdge_map_fst]
          exact hnd1
    · rw [if_neg hemp]
      have hemp2 : ¬e2.isEmpty = true := hemp
      refine ⟨?_, ?_, ?_⟩
      · intro k2 hk2
        rw [findEdge_modify_other _ _ _ _ hk2, findEdge_modify_other _ _ _ _ hk2]
      · rw [modifyEdge_map_fst, modifyEdge_map_fst]
      · rw [findEdge_modify_self, findEdge_modify_self, hk]
        simp only [Option.map_some']
        rw [if_pos hze, if_neg hemp2]
  · rw [if_neg hz]
    have hze : ¬e0.num_wall - 1 = 0 := hz
    refine ⟨?_, ?_, ?_⟩
    · intro k2 hk2
      rw [findEdge_modify_other _ _ _ _ hk2]
    · rw [modifyEdge_map_fst]
    · rw [findEdge_modify_self, hk]
      simp only [Option.map_some']
      rw [if_neg hze]

theorem penetrate_some (h w : Nat) (rmap : Cell → Nat) (wallA : Cell → Int)
    (rid : Nat) (dx dy : Int) :
    ∀ (fuel : Nat) (cx cy : Int) (acc : List Cell) (enc : Nat) (anchor : Cell),
      (penetrate h w rmap wallA rid dx dy fuel cx cy acc).1 =
          some (enc, anchor) → enc ≠ 0 ∧ enc ≠ rid := by
  intro fuel
  induction fuel with
  | zero =>
    intro cx cy acc enc anchor hres
    exact absurd hres (by simp [penetrate])
  | succ fuel ih =>
    intro cx cy acc enc anchor hres
    rw [penetrate] at hres
    by_cases hin : inB h w (cx, cy) = true
    · rw [if_neg (by simp [hin])] at hres
      by_cases hwl : wallA (cx, cy) = 1
      · rw [if_pos hwl] at hres
        exact ih _ _ _ _ _ hres
      · rw [if_neg hwl] at hres
        by_cases hr : rmap (cx, cy) ≠ 0 ∧ rmap (cx, cy) ≠ rid
        · rw [if_pos hr] at hres
          simp only [Prod.mk.injEq] at hres
          have := Option.some.inj hres
          rw [Prod.mk.injEq] at this
          rw [← this.1]
          exact hr
        · rw [if_neg hr] at hres
          exact absurd hres (by simp)
    · rw [if_pos (by simp [Bool.not_eq_true] at hin; simp [hin])] at hres
      exact absurd hres (by simp)

theorem EInv_addWall_setSeg_absent (es : Edges) (sm : SegMap) (rid enc : Nat)
    (slen : Nat) (segLabel : Int)
    (hrid : 0 < rid) (henc : 0 < enc) (hne : enc ≠ rid)
    (hfind : findSeg segLabel sm = none) (hinv : EInv es sm) :
    EInv (addWall es rid enc slen)
      (setSeg segLabel (canonKey rid enc, slen) sm) := by
  obtain ⟨hnd, hsnd, hent, hsm⟩ := hinv
  have hset : setSeg segLabel (canonKey rid enc, slen) sm =
      sm ++ [(segLabel, (canonKey rid enc, slen))] := setSeg_absent _ _ _ hfind
  have hklt : (canonKey rid enc).1 < (canonKey rid enc).2 :=
    canonKey_lt rid enc (Ne.symm hne)
  have hkpos : 0 < (canonKey rid enc).1 := canonKey_pos rid enc hrid henc
  rw [hset]
  refine ⟨addWall_nodup es rid enc slen hnd, ?_, ?_, ?_⟩
  · rw [List.map_append]
    simp only [List.map_cons, List.map_nil]
    rw [List.nodup_append]
    refine ⟨hsnd, by simp, ?_⟩
    intro x hx
    simp only [List.mem_singleton]
    intro hc
    subst hc
    exact ((findSeg_none_iff _ _).mp hfind) hx
  · intro k e hke
    by_cases hk : k = canonKey rid enc
    · subst hk
      rw [addWall_find_self] at hke
      have he := (Option.some.inj hke).symm
      subst he
      have hcnt : smCount (sm ++ [(segLabel, (canonKey rid enc, slen))])
          (canonKey rid enc) = smCount sm (canonKey rid enc) + 1 := by
        rw [smCount_append]
        simp
      have harea : smArea (sm ++ [(segLabel, (canonKey rid enc, slen))])
          (canonKey rid enc) = smArea sm (canonKey rid enc) + slen := by
        rw [smArea_append]
        simp
      cases hold : findEdge (canonKey rid enc) es with
      | some e0 =>
        obtain ⟨p1, p2, p3, p4, p5, p6, p7, p8, p9⟩ :=
          hent (canonKey rid enc) e0 hold
        simp only [Option.getD_some]
        refine ⟨hkpos, hklt, p3, p4, ?_, ?_, ?_, ?_, ?_⟩
        · simpa using p5
        · refine ⟨fun _ => ?_, fun _ => rfl⟩
          show (1 : Int) ≤ e0.num_wall + 1
          have := Int.natCast_nonneg (smCount sm (canonKey rid enc))
          omega
        · show e0.num_wall + 1 = _
          rw [hcnt]
          push_cast
          omega
        · show e0.area_wall + (slen : Int) = _
          rw [harea]
          push_cast
          omega
        · simp [ConnTypes.isEmpty]
      | none =>
        have hzero : smCount sm (canonKey rid enc) = 0 := by
          rw [smCount_eq_zero_iff]
          intro q hq hc
          obtain ⟨e2, he2⟩ := hsm q hq
          rw [hc, hold] at he2
          cases he2
        simp only [Option.getD_none]
        refine ⟨hkpos, hklt, ?_, ?_, ?_, ?_, ?_, ?_, ?_⟩
        · simp [emptyEdge]
        · simp [emptyEdge]
        · simp [emptyEdge]
        · simp [emptyEdge]
        · show (0 : Int) + 1 = _
          rw [hcnt, hzero]
          simp
        · show (0 : Int) + (slen : Int) = _
          rw [harea, smArea_zero sm _ hzero]
          simp
        · simp [emptyEdge, ConnTypes.isEmpty]
    · rw [addWall_find_other es rid enc slen k hk] at hke
      obtain ⟨p1, p2, p3, p4, p5, p6, p7, p8, p9⟩ := hent k e hke
      have hcnt : smCount (sm ++ [(segLabel, (canonKey rid enc, slen))]) k =
          smCount sm k := by
        rw [smCount_append, if_neg (fun hc => hk hc.symm)]
        omega
      have harea : smArea (sm ++ [(segLabel, (canonKey rid enc, slen))]) k =
          smArea sm k := by
        rw [smArea_append, if_neg (fun hc => hk hc.symm)]
        omega
      exact ⟨p1, p2, p3, p4, p5, p6, by rw [hcnt]; exact p7,
        by rw [harea]; exact p8, p9⟩
  · intro q hq
    rcases List.mem_append.mp hq with hq1 | hq2
    · obtain ⟨e, he⟩ := hsm q hq1
      by_cases hk : q.2.1 = canonKey rid enc
      · rw [hk]
        exact ⟨_, addWall_find_self es rid enc slen⟩
      · exact ⟨e, by rw [addWall_find_other es rid enc slen _ hk]; exact he⟩
    · have hq3 : q = (segLabel, (canonKey rid enc, slen)) := by simpa using hq2
      subst hq3
      exact ⟨_, addWall_find_self es rid enc slen⟩

theorem mem_setSeg (l : Int) (v : (Nat × Nat) × Nat) (sm : SegMap)
    (hsnd : (sm.map Prod.fst).Nodup) (q : Int × ((Nat × Nat) × Nat))
    (hq : q ∈ setSeg l v sm) : q = (l, v) ∨ (q ∈ sm ∧ q.1 ≠ l) := by
  induction sm with
  | nil =>
    left
    simpa [setSeg] using hq
  | cons q2 rest ih =>
    obtain ⟨l2, v2⟩ := q2
    rw [List.map_cons, List.nodup_cons] at hsnd
    by_cases hl : l2 = l
    · subst hl
      rw [setSeg, if_pos rfl] at hq
      rcases List.mem_cons.mp hq with rfl | hq2
      · exact Or.inl rfl
      · refine Or.inr ⟨List.mem_cons.mpr (Or.inr hq2), ?_⟩
        intro hc
        exact hsnd.1 (hc ▸ List.mem_map.mpr ⟨q, hq2, rfl⟩)
    · rw [setSeg, if_neg hl] at hq
      rcases List.mem_cons.mp hq with rfl | hq2
      · exact Or.inr ⟨List.mem_cons.mpr (Or.inl rfl), hl⟩
      · rcases ih hsnd.2 hq2 with hc | ⟨hm, hne⟩
        · exact Or.inl hc
        · exact Or.inr ⟨List.mem_cons.mpr (Or.inr hm), hne⟩

theorem smCount_ge_two (sm : SegMap) (k : Nat × Nat)
    (hsnd : (sm.map Prod.fst).Nodup) (q1 q2 : Int × ((Nat × Nat) × Nat))
    (h1 : q1 ∈ sm) (h2 : q2 ∈ sm) (hne : q1.1 ≠ q2.1)
    (hk1 : q1.2.1 = k) (hk2 : q2.2.1 = k) : 2 ≤ smCount sm k := by
  have hnodup : sm.Nodup := List.Nodup.of_map _ hsnd
  have hfn : (sm.filter (fun q => decide (q.2.1 = k))).Nodup := hnodup.filter _
  have hf1 : q1 ∈ sm.filter (fun q => decide (q.2.1 = k)) := by
    rw [List.mem_filter]
    exact ⟨h1, by simp [hk1]⟩
  have hf2 : q2 ∈ sm.filter (fun q => decide (q.2.1 = k)) := by
    rw [List.mem_filter]
    exact ⟨h2, by simp [hk2]⟩
  have hq12 : q1 ≠ q2 := fun hc => hne (by rw [hc])
  have hcard : ({q1, q2} : Finset (Int × ((Nat × Nat) × Nat))).card = 2 :=
    Finset.card_pair hq12
  calc (2 : Nat) = ({q1, q2} : Finset _).card := hcard.symm
    _ ≤ (sm.filter (fun q => decide (q.2.1 = k))).toFinset.card := by
        apply Finset.card_le_card
        intro x hx
        rw [Finset.mem_insert, Finset.mem_singleton] at hx
        rcases hx with rfl | rfl
        · exact List.mem_toFinset.mpr hf1
        · exact List.mem_toFinset.mpr hf2
    _ = smCount sm k := List.toFinset_card_of_nodup hfn

theorem EImp_addWall_shape (sm2 : SegMap) (K : Nat × Nat) (slen : Nat)
    (e0b : EdgeData) (hKpos : 0 < K.1) (hKlt : K.1 < K.2)
    (hnw : 0 ≤ e0b.num_wall)
    (hdw1 : 0 ≤ e0b.num_door_window) (hdw2 : 0 ≤ e0b.area_door_window)
    (hdw3 : (e0b.connection_types.door = true ∨
      e0b.connection_types.window = true) ↔ 1 ≤ e0b.num_door_window)
    (hcnt : (e0b.num_wall + 1 : Int) = smCount sm2 K)
    (harea : (e0b.area_wall + slen : Int) = smArea sm2 K) :
    EImp sm2 K
      { e0b with
        connection_types := { e0b.connection_types with wall := true },
        num_wall := e0b.num_wall + 1,
        area_wall := e0b.area_wall + slen } := by
  refine ⟨hKpos, hKlt, hdw1, hdw2, by simpa using hdw3, ?_, hcnt, harea, ?_⟩
  · refine ⟨fun _ => ?_, fun _ => rfl⟩
    show (1 : Int) ≤ e0b.num_wall + 1
    omega
  · simp [ConnTypes.isEmpty]

theorem EInv_addWall_rollback (es : Edges) (sm : SegMap) (rid enc : Nat)
    (slen : Nat) (segLabel : Int) (pv : (Nat × Nat) × Nat)
    (hrid : 0 < rid) (henc : 0 < enc) (hne : enc ≠ rid)
    (hfind : findSeg segLabel sm = some pv) (hinv : EInv es sm) :
    EInv (addWall (rollbackWall es pv.1 pv.2) rid enc slen)
      (setSeg segLabel (canonKey rid enc, slen) sm) := by
  obtain ⟨hnd, hsnd, hent, hsm⟩ := hinv
  have hqmem : (segLabel, pv) ∈ sm := mem_of_findSeg _ _ _ hfind
  obtain ⟨e0, he0⟩ := hsm (segLabel, pv) hqmem
  obtain ⟨p1, p2, p3, p4, p5, p6, p7, p8, p9⟩ := hent pv.1 e0 he0
  have hcnt1 : 1 ≤ smCount sm pv.1 := smCount_pos sm segLabel pv hfind
  obtain ⟨hoth, hsub, hself⟩ := rollbackWall_spec es pv.1 pv.2 e0 hnd he0
  have hndrb : ((rollbackWall es pv.1 pv.2).map Prod.fst).Nodup :=
    List.Nodup.sublist hsub hnd
  have hsc := fun k => smCount_setSeg_present segLabel (canonKey rid enc) slen
    pv sm hsnd hfind k
  have hsa := fun k => smArea_setSeg_present segLabel (canonKey rid enc) slen
    pv sm hsnd hfind k
  have hmemL : segLabel ∈ sm.map Prod.fst :=
    List.mem_map.mpr ⟨(segLabel, pv), hqmem, rfl⟩
  have hsmapfst : (setSeg segLabel (canonKey rid enc, slen) sm).map Prod.fst =
      sm.map Prod.fst := setSeg_map_fst_present _ _ _ hmemL
  refine ⟨addWall_nodup _ rid enc slen hndrb, by rw [hsmapfst]; exact hsnd, ?_, ?_⟩
  · intro k e hke
    by_cases hk : k = canonKey rid enc
    · subst hk
      rw [addWall_find_self] at hke
      have he := (Option.some.inj hke).symm
      subst he
      have hKpos : 0 < (canonKey rid enc).1 := canonKey_pos rid enc hrid henc
      have hKlt : (canonKey rid enc).1 < (canonKey rid enc).2 :=
        canonKey_lt rid enc (Ne.symm hne)
      by_cases hKpv : canonKey rid enc = pv.1
      · rw [hKpv, hself]
        have hsc2 := hsc pv.1
        rw [hKpv] at hsc2
        rw [if_pos rfl] at hsc2
        have hsa2 := hsa pv.1
        rw [hKpv] at hsa2
        rw [if_pos rfl, if_pos rfl] at hsa2
        by_cases hz : e0.num_wall - 1 = 0
        · have hone : smCount sm pv.1 = 1 := by omega
          by_cases hemp : (ConnTypes.mk e0.connection_types.door
              e0.connection_types.window false).isEmpty = true
          · rw [if_pos hz, if_pos hemp]
            have hsingle : smArea sm pv.1 = pv.2 :=
              smArea_of_single sm segLabel pv pv.1 hqmem rfl hone
            simp only [Option.getD_none]
            apply EImp_addWall_shape _ pv.1 slen _ p1 p2
            · simp [emptyEdge]
            · simp [emptyEdge]
            · simp [emptyEdge]
            · simp [emptyEdge]
            · show (0 : Int) + 1 = _
              omega
            · show (0 : Int) + (slen : Int) = _
              omega
          · rw [if_pos hz, if_neg hemp]
            simp only [Option.getD_some]
            apply EImp_addWall_shape _ pv.1 slen
              ⟨⟨e0.connection_types.door, e0.connection_types.window, false⟩,
                e0.num_door_window, e0.area_door_window,
                e0.num_wall - 1, e0.area_wall - (pv.2 : Int)⟩ p1 p2
            · show (0 : Int) ≤ e0.num_wall - 1
              omega
            · simpa using p3
            · simpa using p4
            · simpa using p5
            · show e0.num_wall - 1 + 1 = _
              omega
            · show e0.area_wall - (pv.2 : Int) + (slen : Int) = _
              omega
        · rw [if_neg hz]
          simp only [Option.getD_some]
          apply EImp_addWall_shape _ pv.1 slen
            ⟨e0.connection_types, e0.num_door_window, e0.area_door_window,
              e0.num_wall - 1, e0.area_wall - (pv.2 : Int)⟩ p1 p2
          · show (0 : Int) ≤ e0.num_wall - 1
            omega
          · simpa using p3
          · simpa using p4
          · simpa using p5
          · show e0.num_wall - 1 + 1 = _
            omega
          · show e0.area_wall - (pv.2 : Int) + (slen : Int) = _
            omega
      · rw [hoth _ hKpv]
        have hsc2 := hsc (canonKey rid enc)
        rw [if_neg (fun hc => hKpv hc.symm), if_pos rfl] at hsc2
        have hsa2 := hsa (canonKey rid enc)
        rw [if_neg (fun hc => hKpv hc.symm), if_pos rfl] at hsa2
        cases holdK : findEdge (canonKey rid enc) es with
        | some eK =>
          obtain ⟨r1, r2, r3, r4, r5, r6, r7, r8, r9⟩ :=
            hent (canonKey rid enc) eK holdK
          simp only [Option.getD_some]
          apply EImp_addWall_shape _ (canonKey rid enc) slen _ hKpos hKlt
          · have := Int.natCast_nonneg (smCount sm (canonKey rid enc))
            omega
          · exact r3
          · exact r4
          · exact r5
          · omega
          · omega
        | none =>
          have hzK : smCount sm (canonKey rid enc) = 0 := by
            rw [smCount_eq_zero_iff]
            intro q hq hc
            obtain ⟨e2, he2⟩ := hsm q hq
            rw [hc, holdK] at he2
            cases he2
          have hzA : smArea sm (canonKey rid enc) = 0 := smArea_zero _ _ hzK
          simp only [Option.getD_none]
          apply EImp_addWall_shape _ (canonKey rid enc) slen _ hKpos hKlt
          · simp [emptyEdge]
          · simp [emptyEdge]
          · simp [emptyEdge]
          · simp [emptyEdge]
          · show (0 : Int) + 1 = _
            omega
          · show (0 : Int) + (slen : Int) = _
            omega
    · rw [addWall_find_other _ rid enc slen k hk] at hke
      by_cases hkpv : k = pv.1
      · subst hkpv
        rw [hself] at hke
        have hkc : ¬(canonKey rid enc = pv.1) := fun hc => hk hc.symm
        have hscK := hsc pv.1
        rw [if_pos rfl, if_neg hkc] at hscK
        have hsaK := hsa pv.1
        rw [if_pos rfl, if_neg hkc] at hsaK
        by_cases hz : e0.num_wall - 1 = 0
        · rw [if_pos hz] at hke
          by_cases hemp : (ConnTypes.mk e0.connection_types.door
              e0.connection_types.window false).isEmpty = true
          · rw [if_pos hemp] at hke
            cases hke
          · rw [if_neg hemp] at hke
            have he := (Option.some.inj hke).symm
            subst he
            have hone : smCount sm pv.1 = 1 := by omega
            have hzc : smCount (setSeg segLabel (canonKey rid enc, slen) sm)
                pv.1 = 0 := by omega
            have hsingle : smArea sm pv.1 = pv.2 :=
              smArea_of_single sm segLabel pv pv.1 hqmem rfl hone
            have hza : smArea (setSeg segLabel (canonKey rid enc, slen) sm)
                pv.1 = 0 := by omega
            refine ⟨p1, p2, p3, p4, p5, ?_, ?_, ?_, ?_⟩
            · show false = true ↔ (1 : Int) ≤ e0.num_wall - 1
              constructor
              · intro hc
                cases hc
              · intro hc
                exfalso
                omega
            · show e0.num_wall - 1 = _
              rw [hzc]
              omega
            · show e0.area_wall - (pv.2 : Int) = _
              rw [hza]
              omega
            · show (ConnTypes.mk e0.connection_types.door
                e0.connection_types.window false).isEmpty = false
              exact Bool.eq_false_iff.mpr hemp
        · rw [if_neg hz] at hke
          have he := (Option.some.inj hke).symm
          subst he
          refine ⟨p1, p2, p3, p4, p5, ?_, ?_, ?_, ?_⟩
          · show e0.connection_types.wall = true ↔ (1 : Int) ≤ e0.num_wall - 1
            have hw : e0.connection_types.wall = true := p6.mpr (by omega)
            rw [hw]
            constructor
            · intro
              omega
            · intro
              rfl
          · show e0.num_wall - 1 = _
            omega
          · show e0.area_wall - (pv.2 : Int) = _
            omega
          · exact p9
      · rw [hoth _ hkpv] at hke
        obtain ⟨r1, r2, r3, r4, r5, r6, r7, r8, r9⟩ := hent k e hke
        have hscK := hsc k
        rw [if_neg (fun hc => hkpv hc.symm), if_neg (fun hc => hk hc.symm)]
          at hscK
        have hsaK := hsa k
        rw [if_neg (fun hc => hkpv hc.symm), if_neg (fun hc => hk hc.symm)]
          at hsaK
        exact ⟨r1, r2, r3, r4, r5, r6, by omega, by omega, r9⟩
  · intro q hq
    rcases mem_setSeg segLabel (canonKey rid enc, slen) sm hsnd q hq with
      rfl | ⟨hqsm, hqne⟩
    · exact ⟨_, addWall_find_self _ rid enc slen⟩
    · by_cases hK : q.2.1 = canonKey rid enc
      · rw [hK]
        exact ⟨_, addWall_find_self _ rid enc slen⟩
      · rw [addWall_find_other _ rid enc slen _ hK]
        by_cases hpv : q.2.1 = pv.1
        · rw [hpv, hself]
          by_cases hz : e0.num_wall - 1 = 0
          · exfalso
            have h2 := smCount_ge_two sm pv.1 hsnd q (segLabel, pv) hqsm hqmem
              hqne hpv rfl
            omega
          · rw [if_neg hz]
            exact ⟨_, rfl⟩
        · rw [hoth _ hpv]
          exact hsm q hqsm

/-! ### Preservation of the invariant along the passes -/

/-- The wall-pass invariant packaged on the whole fold state. -/
def WInv (st : WallState) : Prop := EInv st.edges st.segMap

theorem EInv_foldl_edges {s : Type} (sm : SegMap) (f : Edges → s → Edges)
    (hf : ∀ es a, EInv es sm → EInv (f es a) sm) :
    ∀ (l : List s) (es : Edges), EInv es sm → EInv (l.foldl f es) sm := by
  intro l
  induction l with
  | nil => intro es hes; exact hes
  | cons a t ih => intro es hes; exact ih _ (hf es a hes)

theorem WInv_foldl_mem {s : Type} (f : WallState → s → WallState) (P : s → Prop)
    (hf : ∀ st a, P a → WInv st → WInv (f st a)) :
    ∀ (l : List s), (∀ a ∈ l, P a) → ∀ st, WInv st → WInv (l.foldl f st) := by
  intro l
  induction l with
  | nil => intro _ st hst; exact hst
  | cons a t ih =>
    intro hl st hst
    exact ih (fun b hb => hl b (List.mem_cons_of_mem a hb)) _
      (hf st a (hl a (List.mem_cons_self a t)) hst)

theorem EInv_doorWindowPass (h w : Nat) (rmap : Cell → Nat) (icon : Cell → Int)
    (es : Edges) (sm : SegMap) (hinv : EInv es sm) :
    EInv (doorWindowPass h w rmap icon es) sm := by
  rw [doorWindowPass]
  refine EInv_foldl_edges sm _ ?_ _ es hinv
  intro es0 iv h0
  show EInv ((List.range (ccLabel h w (fun c => decide (icon c = iv.1))).2).foldl
    (fun es1 k =>
      if (regionCells h w (ccLabel h w (fun c => decide (icon c = iv.1))).1
          (k + 1)).isEmpty then es1
      else doorWindowUpdate h w rmap iv.2 es1
        (regionCells h w (ccLabel h w (fun c => decide (icon c = iv.1))).1 (k + 1))
        (fun c => decide ((ccLabel h w (fun c => decide (icon c = iv.1))).1 c = k + 1)))
    es0) sm
  refine EInv_foldl_edges sm _ ?_ _ es0 h0
  intro es1 k h1
  by_cases hemp : (regionCells h w (ccLabel h w (fun c => decide (icon c = iv.1))).1
      (k + 1)).isEmpty = true
  · rw [if_pos hemp]
    exact h1
  · rw [if_neg hemp]
    exact EInv_doorWindowUpdate h w rmap iv.2 es1 _ _ sm h1

theorem EInv_wallCommit (h w : Nat) (rmap : Cell → Nat) (wallA : Cell → Int)
    (wl : Cell → Int) (rid enc : Nat) (dx dy : Int) (anchor : Cell)
    (seg0 : List Cell) (st : WallState)
    (hrid : 0 < rid) (henc : 0 < enc) (hne : enc ≠ rid) (hinv : WInv st) :
    WInv (wallCommit h w rmap wallA wl rid enc dx dy anchor seg0 st) := by
  by_cases hex : excludeSegment h w wl
      ((segExtend h w rmap wallA rid enc dx dy anchor seg0
        (seg0.foldl (fun v p => updF v p true) st.visited)).2.dedup) = true
  · have hco : wallCommit h w rmap wallA wl rid enc dx dy anchor seg0 st =
        { edges := st.edges, segMap := st.segMap,
          visited := (segExtend h w rmap wallA rid enc dx dy anchor seg0
            (seg0.foldl (fun v p => updF v p true) st.visited)).1 } := by
      simp only [wallCommit]
      rw [if_pos hex]
    rw [hco]
    exact hinv
  · cases hfs : findSeg (wl anchor) st.segMap with
    | none =>
      have hco : wallCommit h w rmap wallA wl rid enc dx dy anchor seg0 st =
          { edges := addWall st.edges rid enc
              ((segExtend h w rmap wallA rid enc dx dy anchor seg0
                (seg0.foldl (fun v p => updF v p true) st.visited)).2.dedup).length,
            segMap := setSeg (wl anchor) (canonKey rid enc,
              ((segExtend h w rmap wallA rid enc dx dy anchor seg0
                (seg0.foldl (fun v p => updF v p true) st.visited)).2.dedup).length)
              st.segMap,
            visited := (segExtend h w rmap wallA rid enc dx dy anchor seg0
              (seg0.foldl (fun v p => updF v p true) st.visited)).1 } := by
        simp only [wallCommit]
        rw [if_neg hex, hfs]
        rfl
      rw [hco]
      exact EInv_addWall_setSeg_absent st.edges st.segMap rid enc _ _
        hrid henc hne hfs hinv
    | some pv =>
      have hco : wallCommit h w rmap wallA wl rid enc dx dy anchor seg0 st =
          (if ((segExtend h w rmap wallA rid enc dx dy anchor seg0
              (seg0.foldl (fun v p => updF v p true) st.visited)).2.dedup).length
              < pv.2 then
            { edges := addWall (rollbackWall st.edges pv.1 pv.2) rid enc
                ((segExtend h w rmap wallA rid enc dx dy anchor seg0
                  (seg0.foldl (fun v p => updF v p true) st.visited)).2.dedup).length,
              segMap := setSeg (wl anchor) (canonKey rid enc,
                ((segExtend h w rmap wallA rid enc dx dy anchor seg0
                  (seg0.foldl (fun v p => updF v p true) st.visited)).2.dedup).length)
                st.segMap,
              visited := (segExtend h w rmap wallA rid enc dx dy anchor seg0
                (seg0.foldl (fun v p => updF v p true) st.visited)).1 }
          else
            { edges := st.edges, segMap := st.segMap,
              visited := (segExtend h w rmap wallA rid enc dx dy anchor seg0
                (seg0.foldl (fun v p => updF v p true) st.visited)).1 }) := by
        simp only [wallCommit]
        rw [if_neg hex, hfs]
        rfl
      rw [hco]
      by_cases hlt : ((segExtend h w rmap wallA rid enc dx dy anchor seg0
          (seg0.foldl (fun v p => updF v p true) st.visited)).2.dedup).length
          < pv.2
      · rw [if_pos hlt]
        exact EInv_addWall_rollback st.edges st.segMap rid enc _ _ pv
          hrid henc hne hfs hinv
      · rw [if_neg hlt]
        exact hinv

theorem WInv_wallDirStep (h w : Nat) (rmap : Cell → Nat) (wallA : Cell → Int)
    (wl : Cell → Int) (rid : Nat) (x y : Int) (st : WallState) (d : Cell)
    (hrid : 0 < rid) (hinv : WInv st) :
    WInv (wallDirStep h w rmap wallA wl rid x y st d) := by
  simp only [wallDirStep]
  by_cases h1 : (!inB h w (x + d.1, y + d.2)) = true
  · rw [if_pos h1]
    exact hinv
  · rw [if_neg h1]
    by_cases h2 : wallA (x + d.1, y + d.2) ≠ 1
    · rw [if_pos h2]
      exact hinv
    · rw [if_neg h2]
      by_cases h3 : st.visited (x + d.1, y + d.2) = true
      · rw [if_pos h3]
        exact hinv
      · rw [if_neg h3]
        cases hpr : (penetrate h w rmap wallA rid d.1 d.2 (h + w + 2)
            (x + d.1) (y + d.2) []).1 with
        | none => exact hinv
        | some p =>
          obtain ⟨enc, anchor⟩ := p
          obtain ⟨henc0, hne⟩ := penetrate_some h w rmap wallA rid d.1 d.2
            (h + w + 2) (x + d.1) (y + d.2) [] enc anchor hpr
          exact EInv_wallCommit h w rmap wallA wl rid enc d.1 d.2 anchor _ st
            hrid (Nat.pos_of_ne_zero henc0) hne hinv

theorem WInv_wallRoomStep (h w : Nat) (rmap : Cell → Nat) (wallA : Cell → Int)
    (wl : Cell → Int) (st : WallState) (rid : Nat)
    (hrid : 0 < rid) (hinv : WInv st) :
    WInv (wallRoomStep h w rmap wallA wl st rid) := by
  rw [wallRoomStep]
  refine WInv_foldl_mem _ (fun _ => True) ?_ _ (fun _ _ => trivial) st hinv
  intro st1 c _ hst1
  refine WInv_foldl_mem _ (fun _ => True) ?_ _ (fun _ _ => trivial) st1 hst1
  intro st2 dd _ hst2
  exact WInv_wallDirStep h w rmap wallA wl rid c.1 c.2 st2 dd hrid hst2

theorem region_ids_pos (h w : Nat) (rmap : Cell → Nat) :
    ∀ i ∈ region_ids h w rmap, 0 < i := by
  intro i hi
  rw [region_ids, List.mem_filter] at hi
  have h2 := hi.2
  simp only [decide_eq_true_eq] at h2
  omega

theorem detect_adjacency_inv (h w : Nat) (rmap : Cell → Nat)
    (wallA : Cell → Int) (icon : Cell → Int) (wl : Cell → Int) :
    EInv (detect_adjacency h w rmap wallA icon wl)
      ((region_ids h w rmap).foldl (wallRoomStep h w rmap wallA wl)
        { edges := doorWindowPass h w rmap icon [], segMap := [],
          visited := fun _ => false }).segMap := by
  show WInv ((region_ids h w rmap).foldl (wallRoomStep h w rmap wallA wl)
    { edges := doorWindowPass h w rmap icon [], segMap := [],
      visited := fun _ => false })
  refine WInv_foldl_mem (wallRoomStep h w rmap wallA wl) (fun i => 0 < i)
    ?_ (region_ids h w rmap) (region_ids_pos h w rmap) _ ?_
  · intro st a ha hst
    exact WInv_wallRoomStep h w rmap wallA wl st a ha hst
  · show EInv (doorWindowPass h w rmap icon []) ([] : SegMap)
    exact EInv_doorWindowPass h w rmap icon [] [] EInv_nil

/-- Claim C7: every key of the map returned by `detect_adjacency` is a pair of
positive room ids in strictly increasing order (hence never a self-edge), and
the keys are pairwise distinct, so each unordered room pair appears under
exactly one canonical key regardless of which room the connection was
discovered from. -/
theorem edge_keys_canonical (h w : Nat) (rmap : Cell → Nat)
    (wallA : Cell → Int) (icon : Cell → Int) (wl : Cell → Int) :
    ((detect_adjacency h w rmap wallA icon wl).map Prod.fst).Nodup ∧
    ∀ p ∈ detect_adjacency h w rmap wallA icon wl,
      0 < p.1.1 ∧ p.1.1 < p.1.2 := by
  obtain ⟨hnd, -, hent, -⟩ := detect_adjacency_inv h w rmap wallA icon wl
  refine ⟨hnd, ?_⟩
  intro p hp
  obtain ⟨q1, q2, -, -, -, -, -, -, -⟩ :=
    hent p.1 p.2 (findEdge_eq_some_of_mem _ hnd p hp)
  exact ⟨q1, q2⟩

/-- Witness for C7 on the 5×5 plan `gC1` through the real pipeline: the
recorded edge has key `(1, 2)` with `0 < 1 < 2`. -/
theorem edge_keys_canonical_witness :
    ((1, 2), edgeC1) ∈ detect_adjacency 5 5 (extract_rooms 5 5 gC1).1
        (fun c => if gC1 c = 2 then 1 else 0) (fun _ => 0) gC1 ∧
    (0 : Nat) < 1 ∧ (1 : Nat) < 2 := by
  refine ⟨by decide, ?_⟩
  exact (edge_keys_canonical 5 5 (extract_rooms 5 5 gC1).1
    (fun c => if gC1 c = 2 then 1 else 0) (fun _ => 0) gC1).2
    ((1, 2), edgeC1) (by decide)

/-- Claim C10: every entry of the map returned by `detect_adjacency` has a
non-empty connection-type set, the `wall` flag holds exactly when
`num_wall ≥ 1`, a `door` or `window` flag holds exactly when
`num_door_window ≥ 1`, and all four numeric fields are non-negative. -/
theorem edge_records_consistent (h w : Nat) (rmap : Cell → Nat)
    (wallA : Cell → Int) (icon : Cell → Int) (wl : Cell → Int) :
    ∀ p ∈ detect_adjacency h w rmap wallA icon wl,
      p.2.connection_types.isEmpty = false ∧
      (p.2.connection_types.wall = true ↔ 1 ≤ p.2.num_wall) ∧
      ((p.2.connection_types.door = true ∨
          p.2.connection_types.window = true) ↔ 1 ≤ p.2.num_door_window) ∧
      0 ≤ p.2.num_door_window ∧ 0 ≤ p.2.area_door_window ∧
      0 ≤ p.2.num_wall ∧ 0 ≤ p.2.area_wall := by
  intro p hp
  obtain ⟨hnd, -, hent, -⟩ := detect_adjacency_inv h w rmap wallA icon wl
  obtain ⟨-, -, q3, q4, q5, q6, q7, q8, q9⟩ :=
    hent p.1 p.2 (findEdge_eq_some_of_mem _ hnd p hp)
  refine ⟨q9, q6, q5, q3, q4, ?_, ?_⟩
  · rw [q7]
    exact Int.natCast_nonneg _
  · rw [q8]
    exact Int.natCast_nonneg _

/-- Witness for C10 on the 5×5 plan `gC1` through the real pipeline: the
single recorded edge record satisfies all the consistency conjuncts. -/
theorem edge_records_consistent_witness :
    ((1, 2), edgeC1) ∈ detect_adjacency 5 5 (extract_rooms 5 5 gC1).1
        (fun c => if gC1 c = 2 then 1 else 0) (fun _ => 0) gC1 ∧
    (edgeC1.connection_types.isEmpty = false ∧
      (edgeC1.connection_types.wall = true ↔ 1 ≤ edgeC1.num_wall) ∧
      ((edgeC1.connection_types.door = true ∨
          edgeC1.connection_types.window = true) ↔
        1 ≤ edgeC1.num_door_window) ∧
      0 ≤ edgeC1.num_door_window ∧ 0 ≤ edgeC1.area_door_window ∧
      0 ≤ edgeC1.num_wall ∧ 0 ≤ edgeC1.area_wall) := by
  refine ⟨by decide, edge_records_consistent 5 5 (extract_rooms 5 5 gC1).1
    (fun c => if gC1 c = 2 then 1 else 0) (fun _ => 0) gC1
    ((1, 2), edgeC1) (by decide)⟩

/-! ### The segmentation partition invariant (claim C5) -/

/-- 4-adjacency between two room-eligible in-bounds cells. -/
def AdjCells (h w : Nat) (M : Cell → Bool) (c d : Cell) : Prop :=
  inB h w c = true ∧ inB h w d = true ∧ M c = true ∧ M d = true ∧
  (d.1 - c.1, d.2 - c.2) ∈ dirsER

/-- 4-connectedness inside the room-eligible set. -/
def ReachCells (h w : Nat) (M : Cell → Bool) : Cell → Cell → Prop :=
  Relation.ReflTransGen (AdjCells h w M)

theorem AdjCells_symm (h w : Nat) (M : Cell → Bool) :
    ∀ c d : Cell, AdjCells h w M c d → AdjCells h w M d c := by
  intro c d hcd
  obtain ⟨h1, h2, h3, h4, h5⟩ := hcd
  refine ⟨h2, h1, h4, h3, ?_⟩
  simp only [dirsER, List.mem_cons, List.not_mem_nil, or_false,
    Prod.mk.injEq] at h5 ⊢
  omega

theorem ReachCells_symm (h w : Nat) (M : Cell → Bool) :
    ∀ c d, ReachCells h w M c d → ReachCells h w M d c := by
  intro c d hr
  exact Relation.ReflTransGen.symmetric
    (fun x y hxy => AdjCells_symm h w M x y hxy) hr

theorem positions_length (h w : Nat) : (positions h w).length = h * w := by
  rw [positions]
  induction h with
  | zero => simp
  | succ n ih =>
    rw [List.range_succ, List.flatMap_append, List.length_append, ih]
    simp [Nat.succ_mul]

theorem countP_zero_mono (l : List Cell) (m m2 : Cell → Nat)
    (hmono : ∀ c, m2 c = 0 → m c = 0) :
    l.countP (fun c => decide (m2 c = 0)) ≤ l.countP (fun c => decide (m c = 0)) := by
  induction l with
  | nil => simp
  | cons a t ih =>
    rw [List.countP_cons, List.countP_cons]
    by_cases ha : m2 a = 0
    · simp only [ha, hmono a ha]
      omega
    · simp only [decide_eq_false ha, Bool.false_eq_true, if_false]
      omega

theorem countP_flip (l : List Cell) (m m2 : Cell → Nat) (n : Cell)
    (hn : n ∈ l) (h0 : m n = 0) (h1 : m2 n ≠ 0)
    (hmono : ∀ c, m2 c = 0 → m c = 0) :
    l.countP (fun c => decide (m2 c = 0)) + 1 ≤
      l.countP (fun c => decide (m c = 0)) := by
  induction l with
  | nil => cases hn
  | cons a t ih =>
    rw [List.countP_cons, List.countP_cons]
    rcases List.mem_cons.mp hn with heq | hmem
    · subst heq
      simp only [h0, decide_eq_false h1]
      simp only [Bool.false_eq_true, if_false, decide_True, if_true]
      have := countP_zero_mono t m m2 hmono
      omega
    · have := ih hmem
      by_cases ha : m2 a = 0
      · simp only [ha, hmono a ha]
        omega
      · simp only [decide_eq_false ha, Bool.false_eq_true, if_false]
        omega

/-- The flood-fill neighbour fold of `ccFillStep`, generalized to an arbitrary
direction list and accumulator for the induction. -/
def fillGo (h w : Nat) (M : Cell → Bool) (lab : Nat) (c : Cell)
    (ds : List Cell) (acc : (Cell → Nat) × List Cell) : (Cell → Nat) × List Cell :=
  ds.foldl
    (fun acc d =>
      let n : Cell := (c.1 + d.1, c.2 + d.2)
      if inB h w n && M n && decide (acc.1 n = 0) then
        (updF acc.1 n lab, acc.2 ++ [n])
      else acc)
    acc

theorem ccFillStep_eq_fillGo (h w : Nat) (M : Cell → Bool) (lab : Nat)
    (m : Cell → Nat) (c : Cell) :
    ccFillStep h w M lab m c = fillGo h w M lab c dirsER (m, []) := rfl

theorem fillGo_mono (h w : Nat) (M : Cell → Bool) (lab : Nat) (c : Cell) :
    ∀ (ds : List Cell) (acc : (Cell → Nat) × List Cell) (n : Cell),
      acc.1 n ≠ 0 → (fillGo h w M lab c ds acc).1 n = acc.1 n := by
  intro ds
  induction ds with
  | nil => intro acc n _; rfl
  | cons d t ih =>
    intro acc n hn
    rw [fillGo, List.foldl_cons]
    by_cases hg : (inB h w (c.1 + d.1, c.2 + d.2) && M (c.1 + d.1, c.2 + d.2) &&
        decide (acc.1 (c.1 + d.1, c.2 + d.2) = 0)) = true
    · rw [if_pos hg]
      have hz : acc.1 (c.1 + d.1, c.2 + d.2) = 0 := by
        simp only [Bool.and_eq_true, decide_eq_true_eq] at hg
        exact hg.2
      have hne : n ≠ (c.1 + d.1, c.2 + d.2) := fun he => hn (he ▸ hz)
      have hupd : (updF acc.1 (c.1 + d.1, c.2 + d.2) lab) n = acc.1 n := by
        rw [updF, if_neg hne]
      have := ih (updF acc.1 (c.1 + d.1, c.2 + d.2) lab, acc.2 ++ [(c.1 + d.1, c.2 + d.2)])
        n (by show updF acc.1 (c.1 + d.1, c.2 + d.2) lab n ≠ 0
              rw [hupd]; exact hn)
      rw [fillGo] at this
      rw [this]
      exact hupd
    · rw [if_neg hg]
      exact ih acc n hn

theorem fillGo_cons (h w : Nat) (M : Cell → Bool) (lab : Nat) (c : Cell)
    (d : Cell) (t : List Cell) (acc : (Cell → Nat) × List Cell) :
    fillGo h w M lab c (d :: t) acc =
      fillGo h w M lab c t
        (if (inB h w (c.1 + d.1, c.2 + d.2) && M (c.1 + d.1, c.2 + d.2) &&
            decide (acc.1 (c.1 + d.1, c.2 + d.2) = 0)) = true then
          (updF acc.1 (c.1 + d.1, c.2 + d.2) lab,
            acc.2 ++ [(c.1 + d.1, c.2 + d.2)])
        else acc) := rfl

theorem fillGo_new (h w : Nat) (M : Cell → Bool) (lab : Nat) (c : Cell)
    (hlab : lab ≠ 0) :
    ∀ (ds : List Cell) (acc : (Cell → Nat) × List Cell),
      ∃ new, (fillGo h w M lab c ds acc).2 = acc.2 ++ new ∧
        (∀ q ∈ new, (fillGo h w M lab c ds acc).1 q = lab ∧ acc.1 q = 0 ∧
          inB h w q = true ∧ M q = true ∧
          ∃ dd ∈ ds, q = (c.1 + dd.1, c.2 + dd.2)) ∧
        (∀ n, (fillGo h w M lab c ds acc).1 n ≠ acc.1 n →
          acc.1 n = 0 ∧ (fillGo h w M lab c ds acc).1 n = lab ∧ n ∈ new) := by
  intro ds
  induction ds with
  | nil =>
    intro acc
    exact ⟨[], by simp [fillGo], by simp, fun n hn => absurd rfl hn⟩
  | cons d t ih =>
    intro acc
    rw [fillGo_cons]
    by_cases hg : ((inB h w (c.1 + d.1, c.2 + d.2) && M (c.1 + d.1, c.2 + d.2) &&
        decide (acc.1 (c.1 + d.1, c.2 + d.2) = 0)) = true)
    · rw [if_pos hg]
      simp only [Bool.and_eq_true, decide_eq_true_eq] at hg
      obtain ⟨⟨hin, hM⟩, hz⟩ := hg
      obtain ⟨new2, e1, e2, e3⟩ := ih
        (updF acc.1 (c.1 + d.1, c.2 + d.2) lab,
          acc.2 ++ [(c.1 + d.1, c.2 + d.2)])
      have hupd0 : (updF acc.1 (c.1 + d.1, c.2 + d.2) lab)
          (c.1 + d.1, c.2 + d.2) = lab := by
        rw [updF, if_pos rfl]
      refine ⟨(c.1 + d.1, c.2 + d.2) :: new2, ?_, ?_, ?_⟩
      · rw [e1]
        simp
      · intro q hq
        rcases List.mem_cons.mp hq with heq | hmem
        · subst heq
          refine ⟨?_, hz, hin, hM, d, List.mem_cons_self d t, rfl⟩
          have := fillGo_mono h w M lab c t
            (updF acc.1 (c.1 + d.1, c.2 + d.2) lab,
              acc.2 ++ [(c.1 + d.1, c.2 + d.2)])
            (c.1 + d.1, c.2 + d.2) (by show updF _ _ _ _ ≠ 0; rw [hupd0]; exact hlab)
          rw [this]
          exact hupd0
        · obtain ⟨f1, f2, f3, f4, dd, hdd, f5⟩ := e2 q hmem
          have hqz : acc.1 q = 0 := by
            by_cases hqn : q = (c.1 + d.1, c.2 + d.2)
            · subst hqn
              exact hz
            · have hupdq : (updF acc.1 (c.1 + d.1, c.2 + d.2) lab) q = acc.1 q := by
                rw [updF, if_neg hqn]
              have f2b : updF acc.1 (c.1 + d.1, c.2 + d.2) lab q = 0 := f2
              rw [hupdq] at f2b
              exact f2b
          exact ⟨f1, hqz, f3, f4, dd, List.mem_cons_of_mem d hdd, f5⟩
      · intro n hn
        by_cases hn0 : n = (c.1 + d.1, c.2 + d.2)
        · subst hn0
          have hmono := fillGo_mono h w M lab c t
            (updF acc.1 (c.1 + d.1, c.2 + d.2) lab,
              acc.2 ++ [(c.1 + d.1, c.2 + d.2)])
            (c.1 + d.1, c.2 + d.2) (by show updF _ _ _ _ ≠ 0; rw [hupd0]; exact hlab)
          refine ⟨hz, ?_, List.mem_cons_self _ _⟩
          rw [hmono]
          exact hupd0
        · have hacc : (updF acc.1 (c.1 + d.1, c.2 + d.2) lab) n = acc.1 n := by
            rw [updF, if_neg hn0]
          have hne2 : (fillGo h w M lab c t
              (updF acc.1 (c.1 + d.1, c.2 + d.2) lab,
                acc.2 ++ [(c.1 + d.1, c.2 + d.2)])).1 n ≠
              (updF acc.1 (c.1 + d.1, c.2 + d.2) lab, acc.2 ++ [(c.1 + d.1, c.2 + d.2)]).1 n := by
            show _ ≠ updF acc.1 (c.1 + d.1, c.2 + d.2) lab n
            rw [hacc]
            exact hn
          obtain ⟨g1, g2, g3⟩ := e3 n hne2
          have : acc.1 n = 0 := by
            show acc.1 n = 0
            rw [← hacc]
            exact g1
          exact ⟨this, g2, List.mem_cons_of_mem _ g3⟩
    · rw [if_neg hg]
      obtain ⟨new2, e1, e2, e3⟩ := ih acc
      refine ⟨new2, e1, ?_, ?_⟩
      · intro q hq
        obtain ⟨f1, f2, f3, f4, dd, hdd, f5⟩ := e2 q hq
        exact ⟨f1, f2, f3, f4, dd, List.mem_cons_of_mem d hdd, f5⟩
      · exact e3

theorem fillGo_count (h w : Nat) (M : Cell → Bool) (lab : Nat) (c : Cell)
    (hlab : lab ≠ 0) :
    ∀ (ds : List Cell) (acc : (Cell → Nat) × List Cell),
      (positions h w).countP (fun x => decide ((fillGo h w M lab c ds acc).1 x = 0))
          + (fillGo h w M lab c ds acc).2.length ≤
        (positions h w).countP (fun x => decide (acc.1 x = 0)) + acc.2.length := by
  intro ds
  induction ds with
  | nil =>
    intro acc
    exact le_refl _
  | cons d t ih =>
    intro acc
    rw [fillGo_cons]
    by_cases hg : ((inB h w (c.1 + d.1, c.2 + d.2) && M (c.1 + d.1, c.2 + d.2) &&
        decide (acc.1 (c.1 + d.1, c.2 + d.2) = 0)) = true)
    · rw [if_pos hg]
      simp only [Bool.and_eq_true, decide_eq_true_eq] at hg
      obtain ⟨⟨hin, hM⟩, hz⟩ := hg
      have hupd0 : (updF acc.1 (c.1 + d.1, c.2 + d.2) lab)
          (c.1 + d.1, c.2 + d.2) = lab := by
        rw [updF, if_pos rfl]
      have hflip := countP_flip (positions h w) acc.1
        (updF acc.1 (c.1 + d.1, c.2 + d.2) lab) (c.1 + d.1, c.2 + d.2)
        (mem_positions.mpr hin) hz (by rw [hupd0]; exact hlab) ?_
      · have hih := ih (updF acc.1 (c.1 + d.1, c.2 + d.2) lab,
          acc.2 ++ [(c.1 + d.1, c.2 + d.2)])
        simp only [List.length_append, List.length_cons, List.length_nil] at hih
        omega
      · intro x hx
        by_cases hxn : x = (c.1 + d.1, c.2 + d.2)
        · subst hxn
          rw [hupd0] at hx
          exact absurd hx hlab
        · rw [updF, if_neg hxn] at hx
          exact hx
    · rw [if_neg hg]
      exact ih acc

theorem fillGo_nbr (h w : Nat) (M : Cell → Bool) (lab : Nat) (c : Cell)
    (hlab : lab ≠ 0) :
    ∀ (ds : List Cell) (acc : (Cell → Nat) × List Cell) (dd : Cell), dd ∈ ds →
      inB h w (c.1 + dd.1, c.2 + dd.2) = true →
      M (c.1 + dd.1, c.2 + dd.2) = true →
      (fillGo h w M lab c ds acc).1 (c.1 + dd.1, c.2 + dd.2) ≠ 0 := by
  intro ds
  induction ds with
  | nil =>
    intro acc dd hdd
    cases hdd
  | cons d t ih =>
    intro acc dd hdd hin hM
    rw [fillGo_cons]
    by_cases hg : ((inB h w (c.1 + d.1, c.2 + d.2) && M (c.1 + d.1, c.2 + d.2) &&
        decide (acc.1 (c.1 + d.1, c.2 + d.2) = 0)) = true)
    · rw [if_pos hg]
      rcases List.mem_cons.mp hdd with heq | hmem
      · subst heq
        have hupd0 : (updF acc.1 (c.1 + dd.1, c.2 + dd.2) lab)
            (c.1 + dd.1, c.2 + dd.2) = lab := by
          rw [updF, if_pos rfl]
        have hmono := fillGo_mono h w M lab c t
          (updF acc.1 (c.1 + dd.1, c.2 + dd.2) lab,
            acc.2 ++ [(c.1 + dd.1, c.2 + dd.2)])
          (c.1 + dd.1, c.2 + dd.2) (by show updF _ _ _ _ ≠ 0; rw [hupd0]; exact hlab)
        rw [hmono]
        show updF _ _ _ _ ≠ 0
        rw [hupd0]
        exact hlab
      · exact ih _ dd hmem hin hM
    · rw [if_neg hg]
      rcases List.mem_cons.mp hdd with heq | hmem
      · subst heq
        have hnz : acc.1 (c.1 + dd.1, c.2 + dd.2) ≠ 0 := by
          intro hzz
          apply hg
          simp [hin, hM, hzz]
        rw [fillGo_mono h w M lab c t acc _ hnz]
        exact hnz
      · exact ih acc dd hmem hin hM

/-- Invariant of one running flood fill with label `lab`: labels only on
eligible cells, stacked cells carry `lab`, the `lab`-cells are pairwise
connected, every `lab`-cell is still stacked or has all its eligible
neighbours labeled, cells of older labels have all their eligible
neighbours labeled, and adjacent labeled cells agree. -/
def FInv (h w : Nat) (M : Cell → Bool) (lab : Nat) (m : Cell → Nat)
    (s : List Cell) : Prop :=
  (∀ c, m c ≠ 0 → inB h w c = true ∧ M c = true) ∧
  (∀ c ∈ s, m c = lab) ∧
  (∀ c d, m c = lab → m d = lab → ReachCells h w M c d) ∧
  (∀ c, m c = lab → c ∈ s ∨ ∀ d, AdjCells h w M c d → m d ≠ 0) ∧
  (∀ c d, AdjCells h w M c d → m c ≠ 0 → m c ≠ lab → m d ≠ 0) ∧
  (∀ c d, AdjCells h w M c d → m c ≠ 0 → m d ≠ 0 → m c = m d)

/-- What a completed fill guarantees relative to its starting map. -/
def FPost (h w : Nat) (M : Cell → Bool) (lab : Nat) (m m2 : Cell → Nat) : Prop :=
  (∀ c, m c ≠ 0 → m2 c = m c) ∧
  (∀ c, m2 c ≠ m c → m c = 0 ∧ m2 c = lab) ∧
  (∀ c, m2 c ≠ 0 → inB h w c = true ∧ M c = true) ∧
  (∀ c d, m2 c = lab → m2 d = lab → ReachCells h w M c d) ∧
  (∀ c d, AdjCells h w M c d → m2 c ≠ 0 → m2 d ≠ 0) ∧
  (∀ c d, AdjCells h w M c d → m2 c ≠ 0 → m2 d ≠ 0 → m2 c = m2 d)

theorem FPost_of_done (h w : Nat) (M : Cell → Bool) (lab : Nat) (m : Cell → Nat)
    (hinv : FInv h w M lab m []) : FPost h w M lab m m := by
  obtain ⟨i0, i1, i2, i3, i4, i5⟩ := hinv
  refine ⟨fun c _ => rfl, fun c hc => absurd rfl hc, i0, i2, ?_, i5⟩
  intro c d hadj hc
  by_cases hcl : m c = lab
  · rcases i3 c hcl with hmem | hclo
    · cases hmem
    · exact hclo d hadj
  · exact i4 c d hadj hc hcl

theorem FInv_step (h w : Nat) (M : Cell → Bool) (lab : Nat) (hlab : lab ≠ 0)
    (m : Cell → Nat) (c : Cell) (rest : List Cell) (F1 : Cell → Nat)
    (new : List Cell)
    (hinv : FInv h w M lab m (c :: rest))
    (hmono : ∀ n, m n ≠ 0 → F1 n = m n)
    (hnew : ∀ q ∈ new, F1 q = lab ∧ m q = 0 ∧ inB h w q = true ∧ M q = true ∧
      ∃ dd ∈ dirsER, q = (c.1 + dd.1, c.2 + dd.2))
    (hch : ∀ n, F1 n ≠ m n → m n = 0 ∧ F1 n = lab ∧ n ∈ new)
    (hnbr : ∀ dd ∈ dirsER, inB h w (c.1 + dd.1, c.2 + dd.2) = true →
      M (c.1 + dd.1, c.2 + dd.2) = true → F1 (c.1 + dd.1, c.2 + dd.2) ≠ 0) :
    FInv h w M lab F1 (new.reverse ++ rest) := by
  obtain ⟨i0, i1, i2, i3, i4, i5⟩ := hinv
  have hc : m c = lab := i1 c (List.mem_cons_self c rest)
  have hcE : inB h w c = true ∧ M c = true := i0 c (by rw [hc]; exact hlab)
  have hadjnew : ∀ q ∈ new, AdjCells h w M c q := by
    intro q hq
    obtain ⟨f1, f2, f3, f4, dd, hdd, f5⟩ := hnew q hq
    refine ⟨hcE.1, f3, hcE.2, f4, ?_⟩
    subst f5
    show ((c.1 + dd.1) - c.1, (c.2 + dd.2) - c.2) ∈ dirsER
    have hoff : ((c.1 + dd.1) - c.1, (c.2 + dd.2) - c.2) = dd := by
      obtain ⟨a, b⟩ := dd
      simp only [Prod.mk.injEq]
      constructor <;> ring
    rw [hoff]
    exact hdd
  have hreach : ∀ x, F1 x = lab → ReachCells h w M x c := by
    intro x hx
    by_cases hxo : F1 x = m x
    · rw [hxo] at hx
      exact i2 x c hx hc
    · obtain ⟨g1, g2, g3⟩ := hch x hxo
      exact Relation.ReflTransGen.single (AdjCells_symm h w M c x (hadjnew x g3))
  refine ⟨?_, ?_, ?_, ?_, ?_, ?_⟩
  · intro x hx
    by_cases hxo : F1 x = m x
    · rw [hxo] at hx
      exact i0 x hx
    · obtain ⟨g1, g2, g3⟩ := hch x hxo
      obtain ⟨f1, f2, f3, f4, -⟩ := hnew x g3
      exact ⟨f3, f4⟩
  · intro x hxmem
    rcases List.mem_append.mp hxmem with hl | hr
    · exact (hnew x (List.mem_reverse.mp hl)).1
    · have hxl := i1 x (List.mem_cons_of_mem c hr)
      rw [hmono x (by rw [hxl]; exact hlab)]
      exact hxl
  · intro x y hx hy
    exact Relation.ReflTransGen.trans (hreach x hx)
      (ReachCells_symm h w M y c (hreach y hy))
  · intro x hx
    by_cases hxo : F1 x = m x
    · have hxl : m x = lab := by rw [← hxo]; exact hx
      rcases i3 x hxl with hmem | hclo
      · rcases List.mem_cons.mp hmem with heq | hrest
        · subst heq
          right
          intro d hadj
          obtain ⟨-, hdin, -, hdM, hoff⟩ := hadj
          have hde : ((x.1 + (d.1 - x.1), x.2 + (d.2 - x.2)) : Cell) = d := by
            obtain ⟨d1, d2⟩ := d
            simp only [Prod.mk.injEq]
            constructor <;> ring
          have h9 := hnbr (d.1 - x.1, d.2 - x.2) hoff
            (by show inB h w (x.1 + (d.1 - x.1), x.2 + (d.2 - x.2)) = true
                rw [hde]; exact hdin)
            (by show M (x.1 + (d.1 - x.1), x.2 + (d.2 - x.2)) = true
                rw [hde]; exact hdM)
          have h9b : F1 (x.1 + (d.1 - x.1), x.2 + (d.2 - x.2)) ≠ 0 := h9
          rw [hde] at h9b
          exact h9b
        · left
          exact List.mem_append_right _ hrest
      · right
        intro d hadj
        have hd := hclo d hadj
        rw [hmono d hd]
        exact hd
    · obtain ⟨-, -, g3⟩ := hch x hxo
      left
      exact List.mem_append_left _ (List.mem_reverse.mpr g3)
  · intro x d hadj hx hxl
    have hxo : F1 x = m x := by
      by_contra hne
      exact hxl (hch x hne).2.1
    rw [hxo] at hx hxl
    have hd := i4 x d hadj hx hxl
    rw [hmono d hd]
    exact hd
  · intro x y hadj hx hy
    by_cases hxo : F1 x = m x <;> by_cases hyo : F1 y = m y
    · rw [hxo] at hx
      rw [hyo] at hy
      rw [hxo, hyo]
      exact i5 x y hadj hx hy
    · obtain ⟨gy1, gy2, -⟩ := hch y hyo
      rw [hxo] at hx
      by_cases hxl : m x = lab
      · rw [hxo, hxl, gy2]
      · exact absurd gy1 (i4 x y hadj hx hxl)
    · obtain ⟨gx1, gx2, -⟩ := hch x hxo
      rw [hyo] at hy
      by_cases hyl : m y = lab
      · rw [hyo, hyl, gx2]
      · exact absurd gx1 (i4 y x (AdjCells_symm h w M x y hadj) hy hyl)
    · obtain ⟨-, gx2, -⟩ := hch x hxo
      obtain ⟨-, gy2, -⟩ := hch y hyo
      rw [gx2, gy2]

theorem ccFill_spec (h w : Nat) (M : Cell → Bool) (lab : Nat) (hlab : lab ≠ 0) :
    ∀ (fuel : Nat) (m : Cell → Nat) (s : List Cell),
      FInv h w M lab m s →
      (positions h w).countP (fun x => decide (m x = 0)) + s.length ≤ fuel →
      FPost h w M lab m (ccFill h w M lab fuel m s) := by
  intro fuel
  induction fuel with
  | zero =>
    intro m s hinv hfuel
    have hs : s = [] := List.length_eq_zero.mp (by omega)
    subst hs
    exact FPost_of_done h w M lab m hinv
  | succ fuel ih =>
    intro m s hinv hfuel
    cases s with
    | nil => exact FPost_of_done h w M lab m hinv
    | cons c rest =>
      have hcl : ccFill h w M lab (fuel + 1) m (c :: rest) =
          ccFill h w M lab fuel (fillGo h w M lab c dirsER (m, [])).1
            ((fillGo h w M lab c dirsER (m, [])).2.reverse ++ rest) := rfl
      rw [hcl]
      obtain ⟨new, e1, e2, e3⟩ := fillGo_new h w M lab c hlab dirsER (m, [])
      have e1b : (fillGo h w M lab c dirsER (m, [])).2 = new := by
        rw [e1]
        exact List.nil_append new
      rw [e1b]
      have hmono : ∀ n, m n ≠ 0 → (fillGo h w M lab c dirsER (m, [])).1 n = m n :=
        fun n hn => fillGo_mono h w M lab c dirsER (m, []) n hn
      have hch : ∀ n, (fillGo h w M lab c dirsER (m, [])).1 n ≠ m n →
          m n = 0 ∧ (fillGo h w M lab c dirsER (m, [])).1 n = lab ∧ n ∈ new :=
        fun n hn => e3 n hn
      have hnew : ∀ q ∈ new, (fillGo h w M lab c dirsER (m, [])).1 q = lab ∧
          m q = 0 ∧ inB h w q = true ∧ M q = true ∧
          ∃ dd ∈ dirsER, q = (c.1 + dd.1, c.2 + dd.2) :=
        fun q hq => e2 q hq
      have hnbr : ∀ dd ∈ dirsER, inB h w (c.1 + dd.1, c.2 + dd.2) = true →
          M (c.1 + dd.1, c.2 + dd.2) = true →
          (fillGo h w M lab c dirsER (m, [])).1 (c.1 + dd.1, c.2 + dd.2) ≠ 0 :=
        fun dd hdd hin hM => fillGo_nbr h w M lab c hlab dirsER (m, []) dd hdd hin hM
      have hinv2 := FInv_step h w M lab hlab m c rest
        (fillGo h w M lab c dirsER (m, [])).1 new hinv hmono hnew hch hnbr
      have hcount := fillGo_count h w M lab c hlab dirsER (m, [])
      rw [e1b] at hcount
      have hfuel2 : (positions h w).countP
          (fun x => decide ((fillGo h w M lab c dirsER (m, [])).1 x = 0)) +
          (new.reverse ++ rest).length ≤ fuel := by
        rw [List.length_append, List.length_reverse]
        simp only [List.length_cons] at hfuel
        simp only [List.length_nil] at hcount
        omega
      have hpost := ih (fillGo h w M lab c dirsER (m, [])).1
        (new.reverse ++ rest) hinv2 hfuel2
      obtain ⟨p0, p1, p2, p3, p4, p5⟩ := hpost
      refine ⟨?_, ?_, p2, p3, p4, p5⟩
      · intro x hx
        have h1 := hmono x hx
        rw [p0 x (by rw [h1]; exact hx), h1]
      · intro x hx
        by_cases hx1 : ccFill h w M lab fuel (fillGo h w M lab c dirsER (m, [])).1
            (new.reverse ++ rest) x = (fillGo h w M lab c dirsER (m, [])).1 x
        · rw [hx1] at hx ⊢
          obtain ⟨g1, g2, -⟩ := hch x hx
          exact ⟨g1, g2⟩
        · obtain ⟨q1, q2⟩ := p1 x hx1
          refine ⟨?_, q2⟩
          by_contra hmz
          have := hmono x hmz
          rw [this] at q1
          exact hmz q1

theorem AdjCells_irrefl (h w : Nat) (M : Cell → Bool) (c : Cell) :
    ¬ AdjCells h w M c c := by
  intro hadj
  have h5 := hadj.2.2.2.2
  simp only [sub_self, dirsER, List.mem_cons, Prod.mk.injEq,
    List.not_mem_nil, or_false] at h5
  omega

/-- Invariant of the scan between two flood fills: labels only on eligible
cells, labels bounded by the counter, labels dense, labeled cells closed
under eligible adjacency, adjacent labeled cells agree, and equal nonzero
labels are 4-connected. -/
def GInv (h w : Nat) (M : Cell → Bool) (m : Cell → Nat) (cur : Nat) : Prop :=
  (∀ c, m c ≠ 0 → inB h w c = true ∧ M c = true) ∧
  (∀ c, m c ≤ cur) ∧
  (∀ k, 0 < k → k ≤ cur → ∃ c, m c = k) ∧
  (∀ c d, AdjCells h w M c d → m c ≠ 0 → m d ≠ 0) ∧
  (∀ c d, AdjCells h w M c d → m c ≠ 0 → m d ≠ 0 → m c = m d) ∧
  (∀ c d, m c = m d → m c ≠ 0 → ReachCells h w M c d)

theorem FInv_seed (h w : Nat) (M : Cell → Bool) (m : Cell → Nat) (cur : Nat)
    (c : Cell) (hin : inB h w c = true) (hM : M c = true) (hz : m c = 0)
    (hg : GInv h w M m cur) :
    FInv h w M (cur + 1) (updF m c (cur + 1)) [c] := by
  obtain ⟨g0, g1, g2, g3, g4, g5⟩ := hg
  have hlabc : updF m c (cur + 1) c = cur + 1 := by rw [updF, if_pos rfl]
  have honly : ∀ x, updF m c (cur + 1) x = cur + 1 → x = c := by
    intro x hx
    by_contra hne
    rw [updF, if_neg hne] at hx
    have := g1 x
    omega
  have hother : ∀ x, x ≠ c → updF m c (cur + 1) x = m x := by
    intro x hne
    rw [updF, if_neg hne]
  refine ⟨?_, ?_, ?_, ?_, ?_, ?_⟩
  · intro x hx
    by_cases hne : x = c
    · subst hne
      exact ⟨hin, hM⟩
    · rw [hother x hne] at hx
      exact g0 x hx
  · intro x hx
    rcases List.mem_cons.mp hx with heq | hmem
    · subst heq
      exact hlabc
    · cases hmem
  · intro x y hx hy
    rw [honly x hx, honly y hy]
    exact Relation.ReflTransGen.refl
  · intro x hx
    left
    rw [honly x hx]
    exact List.mem_cons_self c []
  · intro x d hadj hx hxl
    have hne : x ≠ c := fun he => hxl (he ▸ hlabc)
    rw [hother x hne] at hx hxl
    have hd := g3 x d hadj hx
    by_cases hdc : d = c
    · subst hdc
      rw [hlabc]
      omega
    · rw [hother d hdc]
      exact hd
  · intro x d hadj hx hd
    by_cases hxc : x = c
    · by_cases hdc : d = c
      · rw [hxc, hdc]
      · rw [hother d hdc] at hd
        rw [hxc] at hadj
        exact absurd hz (g3 d c (AdjCells_symm h w M c d hadj) hd)
    · by_cases hdc : d = c
      · rw [hother x hxc] at hx
        rw [hdc] at hadj
        exact absurd hz (g3 x c hadj hx)
      · rw [hother x hxc] at hx ⊢
        rw [hother d hdc] at hd ⊢
        exact g4 x d hadj hx hd

theorem GInv_after (h w : Nat) (M : Cell → Bool) (m : Cell → Nat) (cur : Nat)
    (c : Cell) (m2 : Cell → Nat)
    (hz : m c = 0) (hg : GInv h w M m cur)
    (hpost : FPost h w M (cur + 1) (updF m c (cur + 1)) m2) :
    GInv h w M m2 (cur + 1) ∧ (∀ x, m x ≠ 0 → m2 x = m x) ∧
    m2 c = cur + 1 ∧ (∀ x, m2 x ≠ m x → m x = 0) := by
  obtain ⟨g0, g1, g2, g3, g4, g5⟩ := hg
  obtain ⟨p0, p1, p2, p3, p4, p5⟩ := hpost
  have hlabc : updF m c (cur + 1) c = cur + 1 := by rw [updF, if_pos rfl]
  have hother : ∀ x, x ≠ c → updF m c (cur + 1) x = m x := by
    intro x hne
    rw [updF, if_neg hne]
  have hmono : ∀ x, m x ≠ 0 → m2 x = m x := by
    intro x hx
    have hne : x ≠ c := fun he => hx (he ▸ hz)
    have h1 : updF m c (cur + 1) x = m x := hother x hne
    rw [p0 x (by rw [h1]; exact hx), h1]
  have hzb : ∀ x, m2 x ≠ m x → m x = 0 := by
    intro x hx
    by_contra hmz
    exact hx (hmono x hmz)
  have hc2 : m2 c = cur + 1 := by
    rw [p0 c (by rw [hlabc]; exact Nat.succ_ne_zero cur), hlabc]
  refine ⟨⟨p2, ?_, ?_, p4, p5, ?_⟩, hmono, hc2, hzb⟩
  · intro x
    by_cases hx1 : m2 x = updF m c (cur + 1) x
    · by_cases hxc : x = c
      · subst hxc
        rw [hx1, hlabc]
      · rw [hx1, hother x hxc]
        have := g1 x
        omega
    · have := (p1 x hx1).2
      omega
  · intro k hk1 hk2
    by_cases hkc : k = cur + 1
    · subst hkc
      exact ⟨c, hc2⟩
    · have hk3 : k ≤ cur := by omega
      obtain ⟨x, hxk⟩ := g2 k hk1 hk3
      refine ⟨x, ?_⟩
      rw [hmono x (by rw [hxk]; omega), hxk]
  · intro x y hxy hx
    by_cases hxl : m2 x = cur + 1
    · have hyl : m2 y = cur + 1 := by rw [← hxy]; exact hxl
      exact p3 x y hxl hyl
    · have hxo : m2 x = updF m c (cur + 1) x := by
        by_contra hne
        exact hxl (p1 x hne).2
      have hyl : ¬ m2 y = cur + 1 := by rw [← hxy]; exact hxl
      have hyo : m2 y = updF m c (cur + 1) y := by
        by_contra hne
        exact hyl (p1 y hne).2
      have hxc : x ≠ c := by
        intro he
        subst he
        rw [hlabc] at hxo
        exact hxl hxo
      have hyc : y ≠ c := by
        intro he
        subst he
        rw [hlabc] at hyo
        exact hyl hyo
      rw [hother x hxc] at hxo
      rw [hother y hyc] at hyo
      apply g5 x y
      · rw [← hxo, ← hyo]
        exact hxy
      · rw [← hxo]
        exact hx

theorem ccScan_spec (h w : Nat) (M : Cell → Bool) :
    ∀ (l : List Cell) (m : Cell → Nat) (cur : Nat),
      (∀ c ∈ l, inB h w c = true) →
      GInv h w M m cur →
      GInv h w M (ccScan h w M m cur l).1 (ccScan h w M m cur l).2 ∧
      (∀ c, m c ≠ 0 → (ccScan h w M m cur l).1 c = m c) ∧
      (∀ c ∈ l, M c = true → (ccScan h w M m cur l).1 c ≠ 0) ∧
      cur ≤ (ccScan h w M m cur l).2 ∧
      (∀ c, (ccScan h w M m cur l).1 c ≠ m c → m c = 0) := by
  intro l
  induction l with
  | nil =>
    intro m cur hin hg
    exact ⟨hg, fun c _ => rfl, fun c hc _ => absurd hc (List.not_mem_nil c),
      le_refl _, fun c hc => absurd rfl hc⟩
  | cons c rest ih =>
    intro m cur hin hg
    have hscan : ccScan h w M m cur (c :: rest) =
        if M c && decide (m c = 0) then
          ccScan h w M
            (ccFill h w M (cur + 1) (h * w + 1) (updF m c (cur + 1)) [c])
            (cur + 1) rest
        else ccScan h w M m cur rest := rfl
    by_cases hgd : (M c && decide (m c = 0)) = true
    · rw [hscan, if_pos hgd]
      simp only [Bool.and_eq_true, decide_eq_true_eq] at hgd
      obtain ⟨hMc, hzc⟩ := hgd
      have hinc : inB h w c = true := hin c (List.mem_cons_self c rest)
      have hseed := FInv_seed h w M m cur c hinc hMc hzc hg
      have hfuel : (positions h w).countP
          (fun x => decide (updF m c (cur + 1) x = 0)) +
          ([c] : List Cell).length ≤ h * w + 1 := by
        have h1 : (positions h w).countP
            (fun x => decide (updF m c (cur + 1) x = 0)) ≤
            (positions h w).length := List.countP_le_length _
        rw [positions_length] at h1
        simp only [List.length_cons, List.length_nil]
        omega
      have hpost := ccFill_spec h w M (cur + 1) (Nat.succ_ne_zero cur)
        (h * w + 1) (updF m c (cur + 1)) [c] hseed hfuel
      obtain ⟨hg2, hmono2, hc2, hzb2⟩ :=
        GInv_after h w M m cur c _ hzc hg hpost
      have hrest : ∀ x ∈ rest, inB h w x = true :=
        fun x hx => hin x (List.mem_cons_of_mem c hx)
      obtain ⟨q0, q1, q2, q3, q4⟩ := ih
        (ccFill h w M (cur + 1) (h * w + 1) (updF m c (cur + 1)) [c])
        (cur + 1) hrest hg2
      refine ⟨q0, ?_, ?_, by omega, ?_⟩
      · intro x hx
        rw [q1 x (by rw [hmono2 x hx]; exact hx), hmono2 x hx]
      · intro x hxmem hMx
        rcases List.mem_cons.mp hxmem with heq | hmem
        · rw [heq]
          rw [q1 c (by rw [hc2]; exact Nat.succ_ne_zero cur), hc2]
          exact Nat.succ_ne_zero cur
        · exact q2 x hmem hMx
      · intro x hx
        by_cases hfx : (ccScan h w M
            (ccFill h w M (cur + 1) (h * w + 1) (updF m c (cur + 1)) [c])
            (cur + 1) rest).1 x =
            ccFill h w M (cur + 1) (h * w + 1) (updF m c (cur + 1)) [c] x
        · rw [hfx] at hx
          exact hzb2 x hx
        · have h0 := q4 x hfx
          by_contra hmz
          rw [hmono2 x hmz] at h0
          exact hmz h0
    · rw [hscan, if_neg hgd]
      obtain ⟨q0, q1, q2, q3, q4⟩ := ih m cur
        (fun x hx => hin x (List.mem_cons_of_mem c hx)) hg
      refine ⟨q0, q1, ?_, q3, q4⟩
      intro x hxmem hMx
      rcases List.mem_cons.mp hxmem with heq | hmem
      · have hnz : m c ≠ 0 := by
          intro hz0
          apply hgd
          rw [heq] at hMx
          simp [hMx, hz0]
        rw [heq, q1 c hnz]
        exact hnz
      · exact q2 x hmem hMx

theorem ccLabel_spec (h w : Nat) (M : Cell → Bool) :
    GInv h w M (ccLabel h w M).1 (ccLabel h w M).2 ∧
    (∀ c ∈ positions h w, M c = true → (ccLabel h w M).1 c ≠ 0) := by
  have hg0 : GInv h w M (fun _ => 0) 0 := by
    refine ⟨fun c hc => absurd rfl hc, fun c => le_refl 0,
      fun k hk1 hk2 => absurd hk1 (by omega),
      fun c d _ hc => absurd rfl hc,
      fun c d _ hc _ => absurd rfl hc,
      fun c d _ hc => absurd rfl hc⟩
  have hs := ccScan_spec h w M (positions h w) (fun _ => 0) 0
    (fun c hc => mem_positions.mp hc) hg0
  exact ⟨hs.1, hs.2.2.1⟩

/-- Claim C5: `extract_rooms` partitions the grid — a pixel gets a positive
room id exactly when its category is outside the excluded set, excluded
pixels keep id 0, ids lie in `1..N` for `N` the number of rooms and every id
in that range occurs, two eligible pixels share an id exactly when they are
4-connected through eligible pixels (so each positive id is one maximal
4-connected component), room ids are listed densely as `1..N`, and each
room's recorded area is the pixel count of its component. -/
theorem extract_rooms_partition (h w : Nat) (g : Cell → Int) :
    (∀ c, inB h w c = true →
      (roomMask g c = true ↔ 0 < (extract_rooms h w g).1 c)) ∧
    (∀ c, inB h w c = true → roomMask g c = false →
      (extract_rooms h w g).1 c = 0) ∧
    (∀ c, inB h w c = true →
      (extract_rooms h w g).1 c ≤ (extract_rooms h w g).2.length) ∧
    (∀ k, 0 < k → k ≤ (extract_rooms h w g).2.length →
      ∃ c, inB h w c = true ∧ (extract_rooms h w g).1 c = k) ∧
    (∀ c d, inB h w c = true → inB h w d = true →
      roomMask g c = true → roomMask g d = true →
      ((extract_rooms h w g).1 c = (extract_rooms h w g).1 d ↔
        ReachCells h w (roomMask g) c d)) ∧
    ((extract_rooms h w g).2.map Room.id =
      (List.range (extract_rooms h w g).2.length).map (fun k => k + 1)) ∧
    (∀ r ∈ (extract_rooms h w g).2,
      r.area = (regionCells h w (extract_rooms h w g).1 r.id).length) := by
  obtain ⟨⟨g0, g1, g2, g3, g4, g5⟩, htot⟩ := ccLabel_spec h w (roomMask g)
  have hm : (extract_rooms h w g).1 = (ccLabel h w (roomMask g)).1 := rfl
  have hlen : (extract_rooms h w g).2.length = (ccLabel h w (roomMask g)).2 := by
    show ((List.range (ccLabel h w (roomMask g)).2).map _).length = _
    rw [List.length_map, List.length_range]
  have htot2 : ∀ c, inB h w c = true → roomMask g c = true →
      (ccLabel h w (roomMask g)).1 c ≠ 0 :=
    fun c hc hM => htot c (mem_positions.mpr hc) hM
  refine ⟨?_, ?_, ?_, ?_, ?_, ?_, ?_⟩
  · intro c hc
    rw [hm]
    constructor
    · intro hM
      exact Nat.pos_of_ne_zero (htot2 c hc hM)
    · intro hpos
      exact (g0 c (Nat.pos_iff_ne_zero.mp hpos)).2
  · intro c hc hMf
    rw [hm]
    by_contra hnz
    rw [(g0 c hnz).2] at hMf
    cases hMf
  · intro c hc
    rw [hm, hlen]
    exact g1 c
  · intro k hk1 hk2
    rw [hlen] at hk2
    obtain ⟨c, hck⟩ := g2 k hk1 hk2
    have hnz : (ccLabel h w (roomMask g)).1 c ≠ 0 := by
      rw [hck]
      omega
    exact ⟨c, (g0 c hnz).1, by rw [hm]; exact hck⟩
  · have hchain : ∀ x y, ReachCells h w (roomMask g) x y →
        (ccLabel h w (roomMask g)).1 x = (ccLabel h w (roomMask g)).1 y := by
      intro x y hr
      have hr2 : Relation.ReflTransGen (AdjCells h w (roomMask g)) x y := hr
      induction hr2 with
      | refl => rfl
      | tail hab hbc ih =>
        have hcopy := hbc
        obtain ⟨hb1, hb2, hb3, hb4, -⟩ := hcopy
        rw [ih hab]
        exact g4 _ _ hbc (htot2 _ hb1 hb3) (htot2 _ hb2 hb4)
    intro c d hc hd hMc hMd
    rw [hm]
    constructor
    · intro heq
      exact g5 c d heq (htot2 c hc hMc)
    · intro hr
      exact hchain c d hr
  · rw [hlen]
    show ((List.range (ccLabel h w (roomMask g)).2).map _).map Room.id = _
    rw [List.map_map]
    rfl
  · intro r hr
    obtain ⟨k, hk, hkeq⟩ := List.mem_map.mp hr
    rw [← hkeq]
    rfl

/-- Witness for C5 on a 2×2 all-category-3 grid: the pixel `(0,0)` is
eligible and receives a positive room id. -/
theorem extract_rooms_partition_witness :
    inB 2 2 ((0 : Int), (0 : Int)) = true ∧
    roomMask (fun _ => 3) ((0 : Int), (0 : Int)) = true ∧
    0 < (extract_rooms 2 2 (fun _ => 3)).1 ((0 : Int), (0 : Int)) := by
  refine ⟨by decide, by decide, ?_⟩
  exact ((extract_rooms_partition 2 2 (fun _ => 3)).1 ((0 : Int), (0 : Int))
    (by decide)).mp (by decide)

end CubiCasa
